import Mathlib

set_option maxRecDepth 8000

/-!
Verification development for the durable ordered key-value store
(`kvstore/server/main.go`, file-backed WAL variant, and the embedded-database
variant).  Keys and values are opaque byte strings, modelled as `List Nat`
with every byte below 256 where it matters.  The Go `string` comparison used
by the btree index is byte-wise lexicographic order, modelled by `ltS`.
-/

namespace KVStore

/-- Byte strings: keys, values, payloads, file contents. -/
abbrev Str := List Nat

/-- Byte-wise lexicographic strict order, as Go compares `string`s
(`a.key < b.(item).key` in `item.Less`). -/
def ltS : Str → Str → Bool
  | [], [] => false
  | [], _ :: _ => true
  | _ :: _, [] => false
  | a :: as, b :: bs => if a < b then true else if b < a then false else ltS as bs

/-- `a ≤ b` for byte strings: not `b < a`. -/
def leS (a b : Str) : Bool := !(ltS b a)

theorem ltS_irrefl (a : Str) : ltS a a = false := by
  induction a with
  | nil => rfl
  | cons x xs ih => simp [ltS, ih]

theorem ltS_trans {a b c : Str} (h₁ : ltS a b = true) (h₂ : ltS b c = true) :
    ltS a c = true := by
  induction a generalizing b c with
  | nil =>
    cases b with
    | nil => simp [ltS] at h₁
    | cons y ys => cases c with
      | nil => simp [ltS] at h₂
      | cons z zs => simp [ltS]
  | cons x xs ih =>
    cases b with
    | nil => simp [ltS] at h₁
    | cons y ys =>
      cases c with
      | nil => simp [ltS] at h₂
      | cons z zs =>
        simp only [ltS] at h₁ h₂ ⊢
        rcases Nat.lt_trichotomy x y with hxy | hxy | hxy
        · rcases Nat.lt_trichotomy y z with hyz | hyz | hyz
          · simp [Nat.lt_trans hxy hyz]
          · subst hyz; simp [hxy]
          · simp [hyz, Nat.lt_asymm hyz] at h₂
        · subst hxy
          rcases Nat.lt_trichotomy x z with hxz | hxz | hxz
          · simp [hxz]
          · subst hxz
            simp [Nat.lt_irrefl] at h₁ h₂ ⊢
            exact ih h₁ h₂
          · simp [hxz, Nat.lt_asymm hxz] at h₂
        · simp [hxy, Nat.lt_asymm hxy] at h₁

theorem ltS_asymm {a b : Str} (h : ltS a b = true) : ltS b a = false := by
  by_contra hc
  have hba : ltS b a = true := by
    cases hx : ltS b a with
    | false => exact absurd hx hc
    | true => rfl
  have := ltS_trans h hba
  rw [ltS_irrefl] at this
  exact Bool.false_ne_true this

theorem ltS_total_eq {a b : Str} (h₁ : ltS a b = false) (h₂ : ltS b a = false) :
    a = b := by
  induction a generalizing b with
  | nil => cases b with
    | nil => rfl
    | cons y ys => simp [ltS] at h₁
  | cons x xs ih =>
    cases b with
    | nil => simp [ltS] at h₂
    | cons y ys =>
      simp only [ltS] at h₁ h₂
      rcases Nat.lt_trichotomy x y with hxy | hxy | hxy
      · simp [hxy] at h₁
      · subst hxy
        simp [Nat.lt_irrefl] at h₁ h₂
        rw [ih h₁ h₂]
      · simp [hxy, Nat.lt_asymm hxy] at h₂

theorem leS_refl (a : Str) : leS a a = true := by
  simp [leS, ltS_irrefl]

theorem leS_of_ltS {a b : Str} (h : ltS a b = true) : leS a b = true := by
  simp [leS, ltS_asymm h]

theorem ltS_of_not_leS {a b : Str} (h : leS a b = false) : ltS b a = true := by
  simpa [leS] using h

theorem leS_trans {a b c : Str} (h₁ : leS a b = true) (h₂ : leS b c = true) :
    leS a c = true := by
  simp only [leS, Bool.not_eq_true'] at h₁ h₂ ⊢
  cases hca : ltS c a with
  | false => rfl
  | true =>
    exfalso
    cases hab : ltS a b with
    | false =>
      have hba : a = b := ltS_total_eq hab h₁
      subst hba
      rw [hca] at h₂
      exact Bool.noConfusion h₂
    | true =>
      have := ltS_trans hca hab
      rw [this] at h₂
      exact Bool.noConfusion h₂

theorem ltS_of_ltS_of_leS {a b c : Str} (h₁ : ltS a b = true) (h₂ : leS b c = true) :
    ltS a c = true := by
  simp only [leS, Bool.not_eq_true'] at h₂
  cases hbc : ltS b c with
  | false => rwa [ltS_total_eq hbc h₂] at h₁
  | true => exact ltS_trans h₁ hbc

theorem ltS_of_leS_of_ltS {a b c : Str} (h₁ : leS a b = true) (h₂ : ltS b c = true) :
    ltS a c = true := by
  simp only [leS, Bool.not_eq_true'] at h₁
  cases hab : ltS a b with
  | false => rwa [← ltS_total_eq hab h₁] at h₂
  | true => exact ltS_trans hab h₂

/-!
## Ordered index

`github.com/google/btree` with `item{key, value}` and `Less` comparing keys
byte-lexicographically.  Modelled as an association list strictly sorted by
key: `Get` is lookup by key equality, `ReplaceOrInsert` is sorted
insert-or-replace, `Delete` removes the entry with the given key, and
`AscendGreaterOrEqual` iterates the entries with key `≥ start` in ascending
order.
-/

/-- The in-memory ordered index: a key-sorted association list. -/
abbrev Tree := List (Str × Str)

/-- `tree.Get(item{key: k})`: the stored value for `k`, if any. -/
def treeGet (k : Str) : Tree → Option Str
  | [] => none
  | (k', v) :: t => if k' = k then some v else treeGet k t

/-- `tree.ReplaceOrInsert(item{key: k, value: v})`: install `(k, v)`,
replacing any entry with the same key, keeping the list sorted. -/
def upsert (k v : Str) : Tree → Tree
  | [] => [(k, v)]
  | (k', v') :: t =>
    if k = k' then (k, v) :: t
    else if ltS k k' then (k, v) :: (k', v') :: t
    else (k', v') :: upsert k v t

/-- `tree.Delete(item{key: k})`: remove the entry with key `k`, if present. -/
def removeKey (k : Str) : Tree → Tree
  | [] => []
  | (k', v') :: t => if k' = k then t else (k', v') :: removeKey k t

/-- Strict ascending sortedness of the index by key. -/
def SortedT (t : Tree) : Prop := t.Pairwise (fun p q => ltS p.1 q.1 = true)

instance (t : Tree) : Decidable (SortedT t) :=
  inferInstanceAs (Decidable
    (List.Pairwise (fun (p q : Str × Str) => ltS p.1 q.1 = true) t))

/-- `Scan`'s loop: `AscendGreaterOrEqual(item{key: startKey}, fn)` visits the
entries with key `≥ startKey` in ascending order, and the callback stops at
the first key `> endKey`, collecting each visited pair. -/
def scanPairs (t : Tree) (startKey endKey : Str) : List (Str × Str) :=
  (t.filter (fun p => leS startKey p.1)).takeWhile (fun p => leS p.1 endKey)

theorem treeGet_upsert_self (k v : Str) (t : Tree) :
    treeGet k (upsert k v t) = some v := by
  induction t with
  | nil => simp [upsert, treeGet]
  | cons p t ih =>
    obtain ⟨k', v'⟩ := p
    by_cases hk : k = k'
    · subst hk; simp [upsert, treeGet]
    · simp only [upsert, hk, if_false]
      by_cases hlt : ltS k k' = true
      · simp [hlt, treeGet]
      · simp only [hlt, if_false, treeGet]
        rw [if_neg (fun h => hk h.symm)]
        exact ih

theorem treeGet_upsert_other {k k' : Str} (hne : k' ≠ k) (v : Str) (t : Tree) :
    treeGet k (upsert k' v t) = treeGet k t := by
  induction t with
  | nil => simp [upsert, treeGet, hne]
  | cons p t ih =>
    obtain ⟨k₀, v₀⟩ := p
    by_cases hk : k' = k₀
    · subst hk
      simp only [upsert, if_pos rfl, treeGet, if_neg hne]
    · simp only [upsert, hk, if_false]
      by_cases hlt : ltS k' k₀ = true
      · simp [hlt, treeGet, hne, ih]
      · simp only [hlt, if_false, treeGet]
        by_cases h0 : k₀ = k
        · simp [h0]
        · simp [h0, ih]

theorem mem_upsert {q : Str × Str} {k v : Str} {t : Tree}
    (hq : q ∈ upsert k v t) : q = (k, v) ∨ q ∈ t := by
  induction t with
  | nil => simp [upsert] at hq; simp [hq]
  | cons r t' ih =>
    obtain ⟨k₁, v₁⟩ := r
    by_cases h1 : k = k₁
    · subst h1
      simp only [upsert, if_pos rfl] at hq
      rcases List.mem_cons.mp hq with he | hm
      · left; exact he
      · right; exact List.mem_cons_of_mem _ hm
    · simp only [upsert, if_neg h1] at hq
      by_cases h2 : ltS k k₁ = true
      · simp only [h2, if_true] at hq
        rcases List.mem_cons.mp hq with he | hm
        · left; exact he
        · right; exact hm
      · simp only [h2, if_false] at hq
        rcases List.mem_cons.mp hq with he | hm
        · right; rw [he]; exact List.mem_cons_self _ _
        · rcases ih hm with hl | hr
          · left; exact hl
          · right; exact List.mem_cons_of_mem _ hr

theorem mem_removeKey {q : Str × Str} {k : Str} {t : Tree}
    (hq : q ∈ removeKey k t) : q ∈ t := by
  induction t with
  | nil => exact hq
  | cons r t' ih =>
    obtain ⟨k₁, v₁⟩ := r
    by_cases h1 : k₁ = k
    · simp only [removeKey, if_pos h1] at hq
      exact List.mem_cons_of_mem _ hq
    · simp only [removeKey, if_neg h1] at hq
      rcases List.mem_cons.mp hq with he | hm
      · rw [he]; exact List.mem_cons_self _ _
      · exact List.mem_cons_of_mem _ (ih hm)

theorem treeGet_none_of_forall {k : Str} {t : Tree}
    (h : ∀ q ∈ t, q.1 ≠ k) : treeGet k t = none := by
  induction t with
  | nil => rfl
  | cons q t' ih =>
    obtain ⟨k₁, v₁⟩ := q
    have hne : k₁ ≠ k := h (k₁, v₁) (List.mem_cons_self _ _)
    simp only [treeGet, if_neg hne]
    exact ih (fun q hq => h q (List.mem_cons_of_mem _ hq))

theorem treeGet_removeKey_self (k : Str) {t : Tree} (h : SortedT t) :
    treeGet k (removeKey k t) = none := by
  induction t with
  | nil => rfl
  | cons p t ih =>
    obtain ⟨k₀, v₀⟩ := p
    rw [SortedT, List.pairwise_cons] at h
    by_cases hk : k₀ = k
    · subst hk
      simp only [removeKey, if_pos rfl]
      refine treeGet_none_of_forall (fun q hq he => ?_)
      have hlt : ltS k₀ q.1 = true := h.1 q hq
      rw [he, ltS_irrefl] at hlt
      exact Bool.noConfusion hlt
    · simp only [removeKey, if_neg hk, treeGet, if_neg hk]
      exact ih h.2

theorem treeGet_removeKey_other {k k' : Str} (hne : k' ≠ k) (t : Tree) :
    treeGet k (removeKey k' t) = treeGet k t := by
  induction t with
  | nil => rfl
  | cons p t ih =>
    obtain ⟨k₀, v₀⟩ := p
    by_cases hk : k₀ = k'
    · subst hk
      simp [removeKey, treeGet, hne]
    · simp only [removeKey, if_neg hk, treeGet]
      by_cases h0 : k₀ = k
      · simp [h0]
      · simp [h0, ih]

theorem sorted_upsert (k v : Str) {t : Tree} (h : SortedT t) :
    SortedT (upsert k v t) := by
  induction t with
  | nil => simp [upsert, SortedT]
  | cons p t ih =>
    obtain ⟨k₀, v₀⟩ := p
    rw [SortedT, List.pairwise_cons] at h
    by_cases hk : k = k₀
    · subst hk
      simp only [upsert, if_true, ite_true]
      rw [SortedT, List.pairwise_cons]
      exact ⟨h.1, h.2⟩
    · simp only [upsert, if_neg hk]
      by_cases hlt : ltS k k₀ = true
      · rw [if_pos hlt, SortedT, List.pairwise_cons]
        refine ⟨?_, List.pairwise_cons.mpr ⟨h.1, h.2⟩⟩
        intro q hq
        rcases List.mem_cons.mp hq with he | hm
        · rw [he]; exact hlt
        · exact ltS_trans hlt (h.1 q hm)
      · rw [if_neg hlt, SortedT, List.pairwise_cons]
        have hk0 : ltS k₀ k = true := by
          cases hx : ltS k₀ k with
          | true => rfl
          | false =>
            exfalso
            have hx2 : ltS k k₀ = false := by
              cases hy : ltS k k₀ with
              | false => rfl
              | true => exact absurd hy hlt
            exact hk (ltS_total_eq hx2 hx)
        refine ⟨?_, ih h.2⟩
        intro q hq
        rcases mem_upsert hq with he | hm
        · rw [he]; exact hk0
        · exact h.1 q hm

theorem sorted_removeKey (k : Str) {t : Tree} (h : SortedT t) :
    SortedT (removeKey k t) := by
  induction t with
  | nil => exact h
  | cons p t ih =>
    obtain ⟨k₀, v₀⟩ := p
    rw [SortedT, List.pairwise_cons] at h
    by_cases hk : k₀ = k
    · simp only [removeKey, if_pos hk]; exact h.2
    · simp only [removeKey, if_neg hk]
      rw [SortedT, List.pairwise_cons]
      exact ⟨fun q hq => h.1 q (mem_removeKey hq), ih h.2⟩

/-!
## UTF-8 layer

Go strings are arbitrary byte sequences; `encoding/json` walks them with
`utf8.DecodeRune`, which accepts exactly the canonical encodings of Unicode
scalar values (no overlong forms, no surrogates, `U+0000`–`U+10FFFF`) and
reports one-byte errors otherwise.  The tokenizer below splits a byte string
into ASCII bytes, decoded multi-byte runes, and invalid bytes, following the
acceptance ranges of Go's `utf8` first-byte/continuation tables.
-/

/-- A Unicode scalar value (what a valid rune is). -/
def Scalar (r : Nat) : Prop := r < 0x110000 ∧ (r < 0xD800 ∨ 0xE000 ≤ r)

instance (r : Nat) : Decidable (Scalar r) :=
  decidable_of_iff (r < 0x110000 ∧ (r < 0xD800 ∨ 0xE000 ≤ r)) Iff.rfl

/-- Canonical UTF-8 encoding of a scalar value (Go `utf8.EncodeRune`). -/
def utf8Encode (r : Nat) : List Nat :=
  if r < 0x80 then [r]
  else if r < 0x800 then [0xC0 + r / 64, 0x80 + r % 64]
  else if r < 0x10000 then [0xE0 + r / 4096, 0x80 + r / 64 % 64, 0x80 + r % 64]
  else [0xF0 + r / 262144, 0x80 + r / 4096 % 64, 0x80 + r / 64 % 64, 0x80 + r % 64]

/-- A valid continuation byte `10xxxxxx`. -/
abbrev isCont (b : Nat) : Prop := 0x80 ≤ b ∧ b ≤ 0xBF

/-- Go's accept-range table for the byte after the leading byte: tighter
bounds for `E0`, `ED`, `F0`, `F4` rule out overlong encodings and
surrogates. -/
abbrev okB1 (b0 b1 : Nat) : Prop :=
  if b0 = 0xE0 then 0xA0 ≤ b1 ∧ b1 ≤ 0xBF
  else if b0 = 0xED then 0x80 ≤ b1 ∧ b1 ≤ 0x9F
  else if b0 = 0xF0 then 0x90 ≤ b1 ∧ b1 ≤ 0xBF
  else if b0 = 0xF4 then 0x80 ≤ b1 ∧ b1 ≤ 0x8F
  else isCont b1

/-- A valid two-byte sequence starts here. -/
abbrev ok2 (b0 b1 : Nat) : Prop := 0xC2 ≤ b0 ∧ b0 ≤ 0xDF ∧ isCont b1

/-- A valid three-byte sequence starts here. -/
abbrev ok3 (b0 b1 b2 : Nat) : Prop := 0xE0 ≤ b0 ∧ b0 ≤ 0xEF ∧ okB1 b0 b1 ∧ isCont b2

/-- A valid four-byte sequence starts here. -/
abbrev ok4 (b0 b1 b2 b3 : Nat) : Prop :=
  0xF0 ≤ b0 ∧ b0 ≤ 0xF4 ∧ okB1 b0 b1 ∧ isCont b2 ∧ isCont b3

/-- Scalar value of a two-byte sequence. -/
def rune2 (b0 b1 : Nat) : Nat := (b0 - 0xC0) * 64 + (b1 - 0x80)

/-- Scalar value of a three-byte sequence. -/
def rune3 (b0 b1 b2 : Nat) : Nat :=
  (b0 - 0xE0) * 4096 + (b1 - 0x80) * 64 + (b2 - 0x80)

/-- Scalar value of a four-byte sequence. -/
def rune4 (b0 b1 b2 b3 : Nat) : Nat :=
  (b0 - 0xF0) * 262144 + (b1 - 0x80) * 4096 + (b2 - 0x80) * 64 + (b3 - 0x80)

/-- One step of Go's UTF-8 walk: an ASCII byte, a decoded rune, or an
invalid byte (for which `DecodeRune` reports `(RuneError, 1)`). -/
inductive Tok where
  | asc (b : Nat)
  | rn (r : Nat)
  | bad (b : Nat)
deriving DecidableEq, Repr

/-- Tokenize a byte string the way Go's `DecodeRune` walk does: the branch
conditions are mutually exclusive on the leading byte, so trying them in
sequence matches Go's first-byte classification; a sequence whose leading
byte announces more bytes than remain is an invalid byte, as in Go. -/
def utf8Toks : List Nat → List Tok
  | [] => []
  | b0 :: b1 :: b2 :: b3 :: bs =>
    if b0 < 0x80 then .asc b0 :: utf8Toks (b1 :: b2 :: b3 :: bs)
    else if ok2 b0 b1 then .rn (rune2 b0 b1) :: utf8Toks (b2 :: b3 :: bs)
    else if ok3 b0 b1 b2 then .rn (rune3 b0 b1 b2) :: utf8Toks (b3 :: bs)
    else if ok4 b0 b1 b2 b3 then .rn (rune4 b0 b1 b2 b3) :: utf8Toks bs
    else .bad b0 :: utf8Toks (b1 :: b2 :: b3 :: bs)
  | [b0, b1, b2] =>
    if b0 < 0x80 then .asc b0 :: utf8Toks [b1, b2]
    else if ok2 b0 b1 then .rn (rune2 b0 b1) :: utf8Toks [b2]
    else if ok3 b0 b1 b2 then [.rn (rune3 b0 b1 b2)]
    else .bad b0 :: utf8Toks [b1, b2]
  | [b0, b1] =>
    if b0 < 0x80 then .asc b0 :: utf8Toks [b1]
    else if ok2 b0 b1 then [.rn (rune2 b0 b1)]
    else .bad b0 :: utf8Toks [b1]
  | [b0] =>
    if b0 < 0x80 then [.asc b0] else [.bad b0]

theorem utf8Toks_cons_asc {b0 : Nat} (h : b0 < 0x80) (bs : List Nat) :
    utf8Toks (b0 :: bs) = .asc b0 :: utf8Toks bs := by
  match bs with
  | [] => simp only [utf8Toks, if_pos h]
  | [b1] => rw [utf8Toks, if_pos h]
  | [b1, b2] => rw [utf8Toks, if_pos h]
  | b1 :: b2 :: b3 :: bs => rw [utf8Toks, if_pos h]

theorem utf8Toks_cons2 {b0 b1 : Nat} (h : ok2 b0 b1) (bs : List Nat) :
    utf8Toks (b0 :: b1 :: bs) = .rn (rune2 b0 b1) :: utf8Toks bs := by
  have hna : ¬ b0 < 0x80 := by
    obtain ⟨h1, -, -⟩ := h
    omega
  match bs with
  | [] => simp only [utf8Toks, if_neg hna, if_pos h]
  | [b2] => rw [utf8Toks, if_neg hna, if_pos h]
  | b2 :: b3 :: bs => rw [utf8Toks, if_neg hna, if_pos h]

theorem utf8Toks_cons3 {b0 b1 b2 : Nat} (h : ok3 b0 b1 b2) (bs : List Nat) :
    utf8Toks (b0 :: b1 :: b2 :: bs) = .rn (rune3 b0 b1 b2) :: utf8Toks bs := by
  have hna : ¬ b0 < 0x80 := by
    obtain ⟨h1, -, -⟩ := h
    omega
  have hn2 : ¬ ok2 b0 b1 := by
    obtain ⟨h1, -, -⟩ := h
    intro hk
    obtain ⟨-, hk2, -⟩ := hk
    omega
  match bs with
  | [] => simp only [utf8Toks, if_neg hna, if_neg hn2, if_pos h]
  | b3 :: bs => rw [utf8Toks, if_neg hna, if_neg hn2, if_pos h]

theorem utf8Toks_cons4 {b0 b1 b2 b3 : Nat} (h : ok4 b0 b1 b2 b3) (bs : List Nat) :
    utf8Toks (b0 :: b1 :: b2 :: b3 :: bs) = .rn (rune4 b0 b1 b2 b3) :: utf8Toks bs := by
  have hna : ¬ b0 < 0x80 := by
    obtain ⟨h1, -, -⟩ := h
    omega
  have hn2 : ¬ ok2 b0 b1 := by
    obtain ⟨h1, -, -⟩ := h
    intro hk
    obtain ⟨-, hk2, -⟩ := hk
    omega
  have hn3 : ¬ ok3 b0 b1 b2 := by
    obtain ⟨h1, -, -⟩ := h
    intro hk
    obtain ⟨-, hk2, -⟩ := hk
    omega
  rw [utf8Toks, if_neg hna, if_neg hn2, if_neg hn3, if_pos h]

/-- Tokenizing a canonically encoded scalar recovers it: ASCII scalars as
ASCII tokens, larger ones as rune tokens. -/
theorem utf8Toks_encode {r : Nat} (h : Scalar r) (rest : List Nat) :
    utf8Toks (utf8Encode r ++ rest) =
      (if r < 0x80 then Tok.asc r else Tok.rn r) :: utf8Toks rest := by
  obtain ⟨hlt, hsur⟩ := h
  by_cases h1 : r < 0x80
  · rw [utf8Encode, if_pos h1, if_pos h1]
    exact utf8Toks_cons_asc h1 rest
  · rw [if_neg h1]
    by_cases h2 : r < 0x800
    · rw [utf8Encode, if_neg h1, if_pos h2]
      have hok : ok2 (0xC0 + r / 64) (0x80 + r % 64) :=
        And.intro (by omega) (And.intro (by omega)
          (And.intro (by omega) (by omega)))
      have hval : rune2 (0xC0 + r / 64) (0x80 + r % 64) = r := by
        rw [rune2]
        omega
      rw [List.cons_append, List.cons_append, List.nil_append, utf8Toks_cons2 hok, hval]
    · by_cases h3 : r < 0x10000
      · rw [utf8Encode, if_neg h1, if_neg h2, if_pos h3]
        have hb1 : okB1 (0xE0 + r / 4096) (0x80 + r / 64 % 64) := by
          simp only [okB1]
          by_cases he0 : r / 4096 = 0
          · rw [if_pos (by omega)]
            constructor <;> omega
          · rw [if_neg (by omega)]
            by_cases hed : r / 4096 = 13
            · rw [if_pos (by omega)]
              have : r < 0xD800 := by
                rcases hsur with h | h
                · exact h
                · omega
              constructor <;> omega
            · rw [if_neg (by omega), if_neg (by omega), if_neg (by omega)]
              constructor <;> omega
        have hok : ok3 (0xE0 + r / 4096) (0x80 + r / 64 % 64) (0x80 + r % 64) :=
          And.intro (by omega) (And.intro (by omega)
            (And.intro hb1 (And.intro (by omega) (by omega))))
        have hval : rune3 (0xE0 + r / 4096) (0x80 + r / 64 % 64) (0x80 + r % 64) = r := by
          rw [rune3]
          omega
        rw [List.cons_append, List.cons_append, List.cons_append, List.nil_append,
          utf8Toks_cons3 hok, hval]
      · rw [utf8Encode, if_neg h1, if_neg h2, if_neg h3]
        have hb1 : okB1 (0xF0 + r / 262144) (0x80 + r / 4096 % 64) := by
          simp only [okB1]
          rw [if_neg (by omega), if_neg (by omega)]
          by_cases hf0 : r / 262144 = 0
          · rw [if_pos (by omega)]
            constructor <;> omega
          · rw [if_neg (by omega)]
            by_cases hf4 : r / 262144 = 4
            · rw [if_pos (by omega)]
              constructor <;> omega
            · rw [if_neg (by omega)]
              constructor <;> omega
        have hok : ok4 (0xF0 + r / 262144) (0x80 + r / 4096 % 64) (0x80 + r / 64 % 64)
            (0x80 + r % 64) :=
          And.intro (by omega) (And.intro (by omega) (And.intro hb1
            (And.intro (And.intro (by omega) (by omega))
              (And.intro (by omega) (by omega)))))
        have hval : rune4 (0xF0 + r / 262144) (0x80 + r / 4096 % 64) (0x80 + r / 64 % 64)
            (0x80 + r % 64) = r := by
          rw [rune4]
          omega
        rw [List.cons_append, List.cons_append, List.cons_append, List.cons_append,
          List.nil_append, utf8Toks_cons4 hok, hval]

theorem rune2_scalar {b0 b1 : Nat} (h0 : 0xC2 ≤ b0 ∧ b0 ≤ 0xDF) (hc : isCont b1) :
    0x80 ≤ rune2 b0 b1 ∧ rune2 b0 b1 < 0x800 := by
  rw [rune2]; omega

theorem rune3_scalar {b0 b1 b2 : Nat} (h0 : 0xE0 ≤ b0 ∧ b0 ≤ 0xEF)
    (h1 : okB1 b0 b1) (hc : isCont b2) :
    0x800 ≤ rune3 b0 b1 b2 ∧ rune3 b0 b1 b2 < 0x10000 ∧
      (rune3 b0 b1 b2 < 0xD800 ∨ 0xE000 ≤ rune3 b0 b1 b2) := by
  simp only [okB1] at h1
  rw [rune3]
  by_cases he0 : b0 = 0xE0
  · rw [if_pos he0] at h1
    subst he0
    omega
  · rw [if_neg he0] at h1
    by_cases hed : b0 = 0xED
    · rw [if_pos hed] at h1
      subst hed
      omega
    · rw [if_neg hed, if_neg (by omega), if_neg (by omega)] at h1
      simp only [isCont] at h1 hc
      omega

theorem rune4_scalar {b0 b1 b2 b3 : Nat} (h0 : 0xF0 ≤ b0 ∧ b0 ≤ 0xF4)
    (h1 : okB1 b0 b1) (hc2 : isCont b2) (hc3 : isCont b3) :
    0x10000 ≤ rune4 b0 b1 b2 b3 ∧ rune4 b0 b1 b2 b3 < 0x110000 := by
  simp only [okB1] at h1
  rw [if_neg (by omega), if_neg (by omega)] at h1
  rw [rune4]
  by_cases hf0 : b0 = 0xF0
  · rw [if_pos hf0] at h1
    subst hf0
    omega
  · rw [if_neg hf0] at h1
    by_cases hf4 : b0 = 0xF4
    · rw [if_pos hf4] at h1
      subst hf4
      omega
    · rw [if_neg hf4] at h1
      simp only [isCont] at h1
      omega

/-- Re-encoding a decoded two-byte rune gives back the original bytes. -/
theorem utf8Encode_rune2 {b0 b1 : Nat} (h0 : 0xC2 ≤ b0 ∧ b0 ≤ 0xDF) (hc : isCont b1) :
    utf8Encode (rune2 b0 b1) = [b0, b1] := by
  have hr := rune2_scalar h0 hc
  rw [utf8Encode, if_neg (by omega), if_pos (by omega), rune2]
  simp only [List.cons.injEq, and_true]
  simp only [isCont] at hc
  omega

/-- Re-encoding a decoded three-byte rune gives back the original bytes. -/
theorem utf8Encode_rune3 {b0 b1 b2 : Nat} (h0 : 0xE0 ≤ b0 ∧ b0 ≤ 0xEF)
    (h1 : okB1 b0 b1) (hc : isCont b2) :
    utf8Encode (rune3 b0 b1 b2) = [b0, b1, b2] := by
  have hr := rune3_scalar h0 h1 hc
  have hb1 : 0x80 ≤ b1 ∧ b1 ≤ 0xBF := by
    simp only [okB1] at h1
    by_cases he0 : b0 = 0xE0
    · rw [if_pos he0] at h1; omega
    · rw [if_neg he0] at h1
      by_cases hed : b0 = 0xED
      · rw [if_pos hed] at h1; omega
      · rw [if_neg hed, if_neg (by omega), if_neg (by omega)] at h1
        simp only [isCont] at h1
        omega
  rw [utf8Encode, if_neg (by omega), if_neg (by omega), if_pos (by omega), rune3]
  simp only [isCont] at hc
  simp only [List.cons.injEq, and_true]
  omega

/-- Re-encoding a decoded four-byte rune gives back the original bytes. -/
theorem utf8Encode_rune4 {b0 b1 b2 b3 : Nat} (h0 : 0xF0 ≤ b0 ∧ b0 ≤ 0xF4)
    (h1 : okB1 b0 b1) (hc2 : isCont b2) (hc3 : isCont b3) :
    utf8Encode (rune4 b0 b1 b2 b3) = [b0, b1, b2, b3] := by
  have hr := rune4_scalar h0 h1 hc2 hc3
  have hb1 : 0x80 ≤ b1 ∧ b1 ≤ 0xBF := by
    simp only [okB1] at h1
    rw [if_neg (by omega), if_neg (by omega)] at h1
    by_cases hf0 : b0 = 0xF0
    · rw [if_pos hf0] at h1; omega
    · rw [if_neg hf0] at h1
      by_cases hf4 : b0 = 0xF4
      · rw [if_pos hf4] at h1; omega
      · rw [if_neg hf4] at h1
        simp only [isCont] at h1; omega
  rw [utf8Encode, if_neg (by omega), if_neg (by omega), if_neg (by omega), rune4]
  simp only [isCont] at hc2 hc3
  simp only [List.cons.injEq, and_true]
  omega

/-!
## JSON string codec

`appendWAL` serializes a `walCommand` with `encoding/json`.  Go's encoder
walks the string's bytes: bytes in the HTML-safe set are copied, `"`,
`\x5c`, newline, carriage return and tab get two-byte escapes, other ASCII
bytes below 0x20 and `<`, `>`, `&` get `\u00XX` escapes, `U+2028`/`U+2029`
get `\uXXXX` escapes, valid multi-byte runes are copied, and invalid bytes
are replaced by the literal text `\ufffd` (strings are "coerced to valid
UTF-8, replacing invalid bytes with the Unicode replacement rune").  The
decoder (`json.Unmarshal`'s string scanner and unquoter) reads until the
unescaped closing quote, resolving escapes (including surrogate pairs) and
re-encoding decoded runes.
-/

/-- Lower-case hex digit byte, as Go's encoder emits. -/
def hexDigit (n : Nat) : Nat := if n < 10 then 48 + n else 87 + n

/-- Hex digit value accepted by Go's `getu4` (digits, lower, upper). -/
def hexVal (d : Nat) : Option Nat :=
  if 48 ≤ d ∧ d ≤ 57 then some (d - 48)
  else if 97 ≤ d ∧ d ≤ 102 then some (d - 87)
  else if 65 ≤ d ∧ d ≤ 70 then some (d - 55)
  else none

/-- The six-byte escape `\uXXXX` for a code unit `r ≤ 0xFFFF`. -/
def uEsc (r : Nat) : List Nat :=
  [0x5c, 0x75, hexDigit (r / 4096 % 16), hexDigit (r / 256 % 16),
    hexDigit (r / 16 % 16), hexDigit (r % 16)]

/-- Go's `htmlSafeSet`: printable ASCII except quote, backslash, `<`, `>`,
`&`. -/
abbrev htmlSafe (b : Nat) : Prop :=
  0x20 ≤ b ∧ b ≠ 0x22 ∧ b ≠ 0x5c ∧ b ≠ 0x3c ∧ b ≠ 0x3e ∧ b ≠ 0x26

/-- Encoder output for one ASCII byte. -/
def encAsc (b : Nat) : List Nat :=
  if htmlSafe b then [b]
  else if b = 0x22 then [0x5c, 0x22]
  else if b = 0x5c then [0x5c, 0x5c]
  else if b = 0x0a then [0x5c, 0x6e]
  else if b = 0x0d then [0x5c, 0x72]
  else if b = 0x09 then [0x5c, 0x74]
  else uEsc b

/-- Encoder output for one tokenized step of the input string. -/
def encTok : Tok → List Nat
  | .asc b => encAsc b
  | .rn r => if r = 0x2028 ∨ r = 0x2029 then uEsc r else utf8Encode r
  | .bad _ => uEsc 0xFFFD

/-- What the decoder reconstructs for one tokenized step: ASCII bytes come
back as themselves (escaped or not), runes come back canonically encoded,
invalid bytes come back as the replacement rune's bytes. -/
def sanTok : Tok → List Nat
  | .asc b => [b]
  | .rn r => utf8Encode r
  | .bad _ => [0xEF, 0xBF, 0xBD]

/-- Go's JSON string encoder applied to a byte string (the body between the
quotes that `json.Marshal` writes for this string). -/
def encStr (s : List Nat) : List Nat := ((utf8Toks s).map encTok).flatten

/-- The byte string the decoder recovers from `encStr s`: `s` with each
invalid byte replaced by the replacement rune, exactly Go's "coerced to
valid UTF-8". -/
def sanitize (s : List Nat) : List Nat := ((utf8Toks s).map sanTok).flatten

/-- Single-character escapes accepted after a backslash by Go's unquoter. -/
def simpleEsc (e : Nat) : Option Nat :=
  if e = 0x22 then some 0x22
  else if e = 0x5c then some 0x5c
  else if e = 0x2f then some 0x2f
  else if e = 0x62 then some 8
  else if e = 0x66 then some 12
  else if e = 0x6e then some 10
  else if e = 0x72 then some 13
  else if e = 0x74 then some 9
  else none

/-- Prefix the produced bytes of one step onto a parse continuation. -/
def joinRes (pre : List Nat) : Option (List Nat × List Nat) → Option (List Nat × List Nat)
  | some (c, r) => some (pre ++ c, r)
  | none => none

/-- Decode the escape following a backslash (Go `unquoteBytes`): simple
escapes, `\uXXXX`, and surrogate pairs; an unpaired surrogate half becomes
the replacement rune, consuming only its own escape. -/
def parseEsc : List Nat → Option (List Nat × List Nat)
  | [] => none
  | e :: bs1 =>
    if e = 0x75 then
      match bs1 with
      | h1 :: h2 :: h3 :: h4 :: bs2 =>
        match hexVal h1, hexVal h2, hexVal h3, hexVal h4 with
        | some d1, some d2, some d3, some d4 =>
          let r := d1 * 4096 + d2 * 256 + d3 * 16 + d4
          if 0xD800 ≤ r ∧ r < 0xDC00 then
            match bs2 with
            | e2 :: u2 :: g1 :: g2 :: g3 :: g4 :: bs3 =>
              if e2 = 0x5c ∧ u2 = 0x75 then
                match hexVal g1, hexVal g2, hexVal g3, hexVal g4 with
                | some c1, some c2, some c3, some c4 =>
                  let r2 := c1 * 4096 + c2 * 256 + c3 * 16 + c4
                  if 0xDC00 ≤ r2 ∧ r2 < 0xE000 then
                    some (utf8Encode (0x10000 + (r - 0xD800) * 1024 + (r2 - 0xDC00)), bs3)
                  else some ([0xEF, 0xBF, 0xBD], bs2)
                | _, _, _, _ => some ([0xEF, 0xBF, 0xBD], bs2)
              else some ([0xEF, 0xBF, 0xBD], bs2)
            | _ => some ([0xEF, 0xBF, 0xBD], bs2)
          else if 0xDC00 ≤ r ∧ r < 0xE000 then some ([0xEF, 0xBF, 0xBD], bs2)
          else some (utf8Encode r, bs2)
        | _, _, _, _ => none
      | _ => none
    else
      match simpleEsc e with
      | some c => some ([c], bs1)
      | none => none

/-- Decode one multi-byte step at a content byte `≥ 0x80` (Go re-encodes
the decoded rune; an invalid byte becomes the replacement rune and one byte
is consumed). -/
def mbChunk (b0 : Nat) : List Nat → (List Nat × List Nat)
  | b1 :: b2 :: b3 :: bs3 =>
    if ok2 b0 b1 then (utf8Encode (rune2 b0 b1), b2 :: b3 :: bs3)
    else if ok3 b0 b1 b2 then (utf8Encode (rune3 b0 b1 b2), b3 :: bs3)
    else if ok4 b0 b1 b2 b3 then (utf8Encode (rune4 b0 b1 b2 b3), bs3)
    else ([0xEF, 0xBF, 0xBD], b1 :: b2 :: b3 :: bs3)
  | [b1, b2] =>
    if ok2 b0 b1 then (utf8Encode (rune2 b0 b1), [b2])
    else if ok3 b0 b1 b2 then (utf8Encode (rune3 b0 b1 b2), [])
    else ([0xEF, 0xBF, 0xBD], [b1, b2])
  | [b1] =>
    if ok2 b0 b1 then (utf8Encode (rune2 b0 b1), [])
    else ([0xEF, 0xBF, 0xBD], [b1])
  | [] => ([0xEF, 0xBF, 0xBD], [])

/-- Parse the body of a JSON string up to and including the closing quote,
returning the decoded bytes and the input remaining after the quote.  The
fuel only bounds the recursion depth; every step consumes at least one
byte, so `length + 1` fuel always suffices. -/
def parseStrF : Nat → List Nat → Option (List Nat × List Nat)
  | 0, _ => none
  | _ + 1, [] => none
  | fuel + 1, b0 :: bs =>
    if b0 = 0x22 then some ([], bs)
    else if b0 = 0x5c then
      match parseEsc bs with
      | some (out, rest) => joinRes out (parseStrF fuel rest)
      | none => none
    else if b0 < 0x20 then none
    else if b0 < 0x80 then joinRes [b0] (parseStrF fuel bs)
    else joinRes (mbChunk b0 bs).1 (parseStrF fuel (mbChunk b0 bs).2)

/-- JSON string body parser with always-sufficient fuel. -/
def parseStr (bs : List Nat) : Option (List Nat × List Nat) :=
  parseStrF (bs.length + 1) bs

/-- Well-formedness of tokenizer output: ASCII tokens hold ASCII bytes and
rune tokens hold non-ASCII scalars. -/
def TokWF : Tok → Prop
  | .asc b => b < 0x80
  | .rn r => Scalar r ∧ 0x80 ≤ r
  | .bad _ => True

theorem utf8Toks_wf (s : List Nat) : ∀ t ∈ utf8Toks s, TokWF t := by
  induction s using utf8Toks.induct with
  | case1 => intro t ht; cases ht
  | case2 b0 b1 b2 b3 bs h ih =>
    rw [utf8Toks_cons_asc h]
    intro t ht
    rcases List.mem_cons.mp ht with he | hm
    · subst he; exact h
    · exact ih t hm
  | case3 b0 b1 b2 b3 bs hna h ih =>
    rw [utf8Toks_cons2 h]
    intro t ht
    rcases List.mem_cons.mp ht with he | hm
    · subst he
      obtain ⟨a, b, c⟩ := h
      have := rune2_scalar ⟨a, b⟩ c
      exact ⟨⟨by omega, by omega⟩, by omega⟩
    · exact ih t hm
  | case4 b0 b1 b2 b3 bs hna hn2 h ih =>
    rw [utf8Toks_cons3 h]
    intro t ht
    rcases List.mem_cons.mp ht with he | hm
    · subst he
      obtain ⟨a, b, c, d⟩ := h
      have := rune3_scalar ⟨a, b⟩ c d
      exact ⟨⟨by omega, by tauto⟩, by omega⟩
    · exact ih t hm
  | case5 b0 b1 b2 b3 bs hna hn2 hn3 h ih =>
    rw [utf8Toks_cons4 h]
    intro t ht
    rcases List.mem_cons.mp ht with he | hm
    · subst he
      obtain ⟨a, b, c, d, e⟩ := h
      have := rune4_scalar ⟨a, b⟩ c d e
      exact ⟨⟨by omega, by omega⟩, by omega⟩
    · exact ih t hm
  | case6 b0 b1 b2 b3 bs hna hn2 hn3 hn4 ih =>
    rw [utf8Toks]
    rw [if_neg hna, if_neg hn2, if_neg hn3, if_neg hn4]
    intro t ht
    rcases List.mem_cons.mp ht with he | hm
    · subst he; trivial
    · exact ih t hm
  | case7 b0 b1 b2 h ih =>
    rw [utf8Toks_cons_asc h]
    intro t ht
    rcases List.mem_cons.mp ht with he | hm
    · subst he; exact h
    · exact ih t hm
  | case8 b0 b1 b2 hna h ih =>
    rw [utf8Toks_cons2 h]
    intro t ht
    rcases List.mem_cons.mp ht with he | hm
    · subst he
      obtain ⟨a, b, c⟩ := h
      have := rune2_scalar ⟨a, b⟩ c
      exact ⟨⟨by omega, by omega⟩, by omega⟩
    · exact ih t hm
  | case9 b0 b1 b2 hna hn2 h =>
    rw [utf8Toks_cons3 h]
    intro t ht
    rcases List.mem_cons.mp ht with he | hm
    · subst he
      obtain ⟨a, b, c, d⟩ := h
      have := rune3_scalar ⟨a, b⟩ c d
      exact ⟨⟨by omega, by tauto⟩, by omega⟩
    · cases hm
  | case10 b0 b1 b2 hna hn2 hn3 ih =>
    rw [utf8Toks]
    rw [if_neg hna, if_neg hn2, if_neg hn3]
    intro t ht
    rcases List.mem_cons.mp ht with he | hm
    · subst he; trivial
    · exact ih t hm
  | case11 b0 b1 h ih =>
    rw [utf8Toks_cons_asc h]
    intro t ht
    rcases List.mem_cons.mp ht with he | hm
    · subst he; exact h
    · exact ih t hm
  | case12 b0 b1 hna h =>
    rw [utf8Toks_cons2 h]
    intro t ht
    rcases List.mem_cons.mp ht with he | hm
    · subst he
      obtain ⟨a, b, c⟩ := h
      have := rune2_scalar ⟨a, b⟩ c
      exact ⟨⟨by omega, by omega⟩, by omega⟩
    · cases hm
  | case13 b0 b1 hna hn2 ih =>
    rw [utf8Toks]
    rw [if_neg hna, if_neg hn2]
    intro t ht
    rcases List.mem_cons.mp ht with he | hm
    · subst he; trivial
    · exact ih t hm
  | case14 b0 h =>
    rw [utf8Toks, if_pos h]
    intro t ht
    rcases List.mem_cons.mp ht with he | hm
    · subst he; exact h
    · cases hm
  | case15 b0 h =>
    rw [utf8Toks, if_neg h]
    intro t ht
    rcases List.mem_cons.mp ht with he | hm
    · subst he; trivial
    · cases hm

theorem hexVal_hexDigit {n : Nat} (h : n < 16) : hexVal (hexDigit n) = some n := by
  interval_cases n <;> decide

theorem parseEsc_u {r : Nat} (h16 : r < 0x10000)
    (hns : ¬(0xD800 ≤ r ∧ r < 0xE000)) (tail : List Nat) :
    parseEsc (0x75 :: hexDigit (r / 4096 % 16) :: hexDigit (r / 256 % 16) ::
      hexDigit (r / 16 % 16) :: hexDigit (r % 16) :: tail) =
      some (utf8Encode r, tail) := by
  rw [parseEsc, if_pos rfl]
  rw [hexVal_hexDigit (by omega), hexVal_hexDigit (by omega),
    hexVal_hexDigit (by omega), hexVal_hexDigit (by omega)]
  have hv : r / 4096 % 16 * 4096 + r / 256 % 16 * 256 + r / 16 % 16 * 16 + r % 16 = r := by
    omega
  dsimp only
  rw [hv, if_neg (by omega), if_neg (by omega)]

theorem parseEsc_simple {e c : Nat} (h : simpleEsc e = some c) (tail : List Nat) :
    parseEsc (e :: tail) = some ([c], tail) := by
  have hne : ¬ e = 0x75 := by
    intro he
    subst he
    simp [simpleEsc] at h
  match tail with
  | [] =>
    rw [parseEsc, if_neg hne, h]
    rintro _ _ _ _ _ ⟨⟩
  | [a] =>
    rw [parseEsc, if_neg hne, h]
    rintro _ _ _ _ _ ⟨⟩
  | [a, b] =>
    rw [parseEsc, if_neg hne, h]
    rintro _ _ _ _ _ ⟨⟩
  | [a, b, c'] =>
    rw [parseEsc, if_neg hne, h]
    rintro _ _ _ _ _ ⟨⟩
  | a :: b :: c' :: d :: r => rw [parseEsc, if_neg hne, h]

theorem mbChunk_ok2 {b0 b1 : Nat} (h : ok2 b0 b1) (rest : List Nat) :
    mbChunk b0 (b1 :: rest) = (utf8Encode (rune2 b0 b1), rest) := by
  match rest with
  | [] => simp only [mbChunk, if_pos h]
  | [b2] => rw [mbChunk, if_pos h]
  | b2 :: b3 :: bs => rw [mbChunk, if_pos h]

theorem mbChunk_ok3 {b0 b1 b2 : Nat} (h : ok3 b0 b1 b2) (rest : List Nat) :
    mbChunk b0 (b1 :: b2 :: rest) = (utf8Encode (rune3 b0 b1 b2), rest) := by
  have hn2 : ¬ ok2 b0 b1 := by
    obtain ⟨h1, -, -⟩ := h
    intro hk
    obtain ⟨-, hk2, -⟩ := hk
    omega
  match rest with
  | [] => simp only [mbChunk, if_neg hn2, if_pos h]
  | b3 :: bs => rw [mbChunk, if_neg hn2, if_pos h]

theorem mbChunk_ok4 {b0 b1 b2 b3 : Nat} (h : ok4 b0 b1 b2 b3) (rest : List Nat) :
    mbChunk b0 (b1 :: b2 :: b3 :: rest) = (utf8Encode (rune4 b0 b1 b2 b3), rest) := by
  have hn2 : ¬ ok2 b0 b1 := by
    obtain ⟨h1, -, -⟩ := h
    intro hk
    obtain ⟨-, hk2, -⟩ := hk
    omega
  have hn3 : ¬ ok3 b0 b1 b2 := by
    obtain ⟨h1, -, -⟩ := h
    intro hk
    obtain ⟨-, hk2, -⟩ := hk
    omega
  rw [mbChunk, if_neg hn2, if_neg hn3, if_pos h]

theorem parseStrF_quote (fuel : Nat) (rest : List Nat) :
    parseStrF (fuel + 1) (0x22 :: rest) = some ([], rest) := by
  rw [parseStrF, if_pos rfl]

theorem parseStrF_asc {b : Nat} (hs : htmlSafe b) (hlt : b < 0x80)
    (fuel : Nat) (tail : List Nat) :
    parseStrF (fuel + 1) (b :: tail) = joinRes [b] (parseStrF fuel tail) := by
  obtain ⟨h20, hq, hb, -, -, -⟩ := hs
  rw [parseStrF, if_neg hq, if_neg hb, if_neg (by omega), if_pos hlt]

theorem parseStrF_esc {bs out rest : List Nat} (h : parseEsc bs = some (out, rest))
    (fuel : Nat) :
    parseStrF (fuel + 1) (0x5c :: bs) = joinRes out (parseStrF fuel rest) := by
  rw [parseStrF, if_neg (by omega), if_pos rfl, h]

theorem parseStrF_rune {r : Nat} (h : Scalar r) (h8 : 0x80 ≤ r)
    (fuel : Nat) (tail : List Nat) :
    parseStrF (fuel + 1) (utf8Encode r ++ tail) =
      joinRes (utf8Encode r) (parseStrF fuel tail) := by
  obtain ⟨hlt, hsur⟩ := h
  by_cases h2 : r < 0x800
  · have he : utf8Encode r = [0xC0 + r / 64, 0x80 + r % 64] := by
      rw [utf8Encode, if_neg (by omega), if_pos h2]
    have hok : ok2 (0xC0 + r / 64) (0x80 + r % 64) :=
      And.intro (by omega) (And.intro (by omega)
        (And.intro (by omega) (by omega)))
    have hval : rune2 (0xC0 + r / 64) (0x80 + r % 64) = r := by
      rw [rune2]
      omega
    rw [he, List.cons_append, List.cons_append, List.nil_append]
    rw [parseStrF, if_neg (by omega), if_neg (by omega), if_neg (by omega),
      if_neg (by omega), mbChunk_ok2 hok, hval, ← he]
  · by_cases h3 : r < 0x10000
    · have he : utf8Encode r =
          [0xE0 + r / 4096, 0x80 + r / 64 % 64, 0x80 + r % 64] := by
        rw [utf8Encode, if_neg (by omega), if_neg h2, if_pos h3]
      have hb1 : okB1 (0xE0 + r / 4096) (0x80 + r / 64 % 64) := by
        simp only [okB1]
        by_cases he0 : r / 4096 = 0
        · rw [if_pos (by omega)]
          constructor <;> omega
        · rw [if_neg (by omega)]
          by_cases hed : r / 4096 = 13
          · rw [if_pos (by omega)]
            have : r < 0xD800 := by
              rcases hsur with h | h
              · exact h
              · omega
            constructor <;> omega
          · rw [if_neg (by omega), if_neg (by omega), if_neg (by omega)]
            constructor <;> omega
      have hok : ok3 (0xE0 + r / 4096) (0x80 + r / 64 % 64) (0x80 + r % 64) :=
        And.intro (by omega) (And.intro (by omega)
          (And.intro hb1 (And.intro (by omega) (by omega))))
      have hval : rune3 (0xE0 + r / 4096) (0x80 + r / 64 % 64) (0x80 + r % 64) = r := by
        rw [rune3]
        omega
      rw [he, List.cons_append, List.cons_append, List.cons_append, List.nil_append]
      rw [parseStrF, if_neg (by omega), if_neg (by omega), if_neg (by omega),
        if_neg (by omega), mbChunk_ok3 hok, hval, ← he]
    · have he : utf8Encode r = [0xF0 + r / 262144, 0x80 + r / 4096 % 64,
          0x80 + r / 64 % 64, 0x80 + r % 64] := by
        rw [utf8Encode, if_neg (by omega), if_neg h2, if_neg h3]
      have hb1 : okB1 (0xF0 + r / 262144) (0x80 + r / 4096 % 64) := by
        simp only [okB1]
        rw [if_neg (by omega), if_neg (by omega)]
        by_cases hf0 : r / 262144 = 0
        · rw [if_pos (by omega)]
          constructor <;> omega
        · rw [if_neg (by omega)]
          by_cases hf4 : r / 262144 = 4
          · rw [if_pos (by omega)]
            constructor <;> omega
          · rw [if_neg (by omega)]
            constructor <;> omega
      have hok : ok4 (0xF0 + r / 262144) (0x80 + r / 4096 % 64) (0x80 + r / 64 % 64)
          (0x80 + r % 64) :=
        And.intro (by omega) (And.intro (by omega) (And.intro hb1
          (And.intro (And.intro (by omega) (by omega))
            (And.intro (by omega) (by omega)))))
      have hval : rune4 (0xF0 + r / 262144) (0x80 + r / 4096 % 64) (0x80 + r / 64 % 64)
          (0x80 + r % 64) = r := by
        rw [rune4]
        omega
      rw [he, List.cons_append, List.cons_append, List.cons_append, List.cons_append,
        List.nil_append]
      rw [parseStrF, if_neg (by omega), if_neg (by omega), if_neg (by omega),
        if_neg (by omega), mbChunk_ok4 hok, hval, ← he]

/-- One encoded token parses back to its sanitized form, whatever follows. -/
theorem parseStrF_encTok {t : Tok} (hwf : TokWF t) (fuel : Nat) (tail : List Nat) :
    parseStrF (fuel + 1) (encTok t ++ tail) =
      joinRes (sanTok t) (parseStrF fuel tail) := by
  match t with
  | .asc b =>
    have hb : b < 0x80 := hwf
    rw [encTok, sanTok, encAsc]
    by_cases hs : htmlSafe b
    · rw [if_pos hs]
      rw [List.cons_append, List.nil_append]
      exact parseStrF_asc hs hb fuel tail
    · rw [if_neg hs]
      by_cases h22 : b = 0x22
      · subst h22
        rw [if_pos rfl, List.cons_append, List.cons_append, List.nil_append]
        exact parseStrF_esc (parseEsc_simple (by decide) tail) fuel
      · rw [if_neg h22]
        by_cases h5c : b = 0x5c
        · subst h5c
          rw [if_pos rfl, List.cons_append, List.cons_append, List.nil_append]
          exact parseStrF_esc (parseEsc_simple (by decide) tail) fuel
        · rw [if_neg h5c]
          by_cases h0a : b = 0x0a
          · subst h0a
            rw [if_pos rfl, List.cons_append, List.cons_append, List.nil_append]
            exact parseStrF_esc (parseEsc_simple (by decide) tail) fuel
          · rw [if_neg h0a]
            by_cases h0d : b = 0x0d
            · subst h0d
              rw [if_pos rfl, List.cons_append, List.cons_append, List.nil_append]
              exact parseStrF_esc (parseEsc_simple (by decide) tail) fuel
            · rw [if_neg h0d]
              by_cases h09 : b = 0x09
              · subst h09
                rw [if_pos rfl, List.cons_append, List.cons_append, List.nil_append]
                exact parseStrF_esc (parseEsc_simple (by decide) tail) fuel
              · rw [if_neg h09, uEsc]
                rw [List.cons_append, List.cons_append, List.cons_append,
                  List.cons_append, List.cons_append, List.cons_append, List.nil_append]
                have hu := parseEsc_u (r := b) (by omega) (by omega) tail
                have hparse := parseStrF_esc hu fuel
                rw [hparse]
                have : utf8Encode b = [b] := by
                  rw [utf8Encode, if_pos hb]
                rw [this]
  | .rn r =>
    obtain ⟨hsc, h8⟩ := hwf
    rw [encTok, sanTok]
    by_cases hls : r = 0x2028 ∨ r = 0x2029
    · rw [if_pos hls, uEsc]
      rw [List.cons_append, List.cons_append, List.cons_append,
        List.cons_append, List.cons_append, List.cons_append, List.nil_append]
      have hu := parseEsc_u (r := r) (by rcases hls with h | h <;> omega)
        (by rcases hls with h | h <;> omega) tail
      exact parseStrF_esc hu fuel
    · rw [if_neg hls]
      exact parseStrF_rune hsc h8 fuel tail
  | .bad b =>
    rw [encTok, sanTok, uEsc]
    rw [List.cons_append, List.cons_append, List.cons_append,
      List.cons_append, List.cons_append, List.cons_append, List.nil_append]
    have hu := parseEsc_u (r := 0xFFFD) (by omega) (by omega) tail
    have hparse := parseStrF_esc hu fuel
    rw [hparse]
    have : utf8Encode 0xFFFD = [0xEF, 0xBF, 0xBD] := by decide
    rw [this]

/-- Parsing the encoded token stream up to a closing quote yields the
sanitized bytes and the remainder. -/
theorem parseStrF_encToks (toks : List Tok) (hwf : ∀ t ∈ toks, TokWF t) :
    ∀ fuel rest, toks.length < fuel →
      parseStrF fuel (((toks.map encTok).flatten) ++ 0x22 :: rest) =
        some ((toks.map sanTok).flatten, rest) := by
  induction toks with
  | nil =>
    intro fuel rest hf
    cases fuel with
    | zero => omega
    | succ m =>
      simp only [List.map_nil, List.flatten_nil, List.nil_append]
      exact parseStrF_quote m rest
  | cons t ts ih =>
    intro fuel rest hf
    cases fuel with
    | zero => omega
    | succ m =>
      simp only [List.map_cons, List.flatten_cons, List.append_assoc]
      rw [parseStrF_encTok (hwf t (List.mem_cons_self _ _)) m]
      rw [ih (fun q hq => hwf q (List.mem_cons_of_mem _ hq)) m rest
        (by simp only [List.length_cons] at hf; omega)]
      rw [joinRes]

/-- Every encoded token is at least one byte. -/
theorem one_le_encTok (t : Tok) : 1 ≤ (encTok t).length := by
  match t with
  | .asc b =>
    rw [encTok, encAsc]
    by_cases hs : htmlSafe b
    · rw [if_pos hs]; simp
    · rw [if_neg hs]
      by_cases h22 : b = 0x22
      · rw [if_pos h22]; simp
      · rw [if_neg h22]
        by_cases h5c : b = 0x5c
        · rw [if_pos h5c]; simp
        · rw [if_neg h5c]
          by_cases h0a : b = 0x0a
          · rw [if_pos h0a]; simp
          · rw [if_neg h0a]
            by_cases h0d : b = 0x0d
            · rw [if_pos h0d]; simp
            · rw [if_neg h0d]
              by_cases h09 : b = 0x09
              · rw [if_pos h09]; simp
              · rw [if_neg h09, uEsc]; simp
  | .rn r =>
    rw [encTok]
    by_cases hls : r = 0x2028 ∨ r = 0x2029
    · rw [if_pos hls, uEsc]; simp
    · rw [if_neg hls, utf8Encode]
      by_cases h1 : r < 0x80
      · rw [if_pos h1]; simp
      · rw [if_neg h1]
        by_cases h2 : r < 0x800
        · rw [if_pos h2]; simp
        · rw [if_neg h2]
          by_cases h3 : r < 0x10000
          · rw [if_pos h3]; simp
          · rw [if_neg h3]; simp
  | .bad b =>
    rw [encTok, uEsc]
    simp

theorem toks_length_le_encStr (s : List Nat) :
    (utf8Toks s).length ≤ (encStr s).length := by
  rw [encStr]
  induction utf8Toks s with
  | nil => simp
  | cons t ts ih =>
    simp only [List.map_cons, List.flatten_cons, List.length_append, List.length_cons]
    have := one_le_encTok t
    omega

/-- The JSON string body written for `s` parses back to the sanitized `s`
and leaves exactly the bytes after the closing quote. -/
theorem parseStr_encStr (s : List Nat) (rest : List Nat) :
    parseStr (encStr s ++ 0x22 :: rest) = some (sanitize s, rest) := by
  rw [parseStr, encStr, sanitize]
  apply parseStrF_encToks (utf8Toks s) (utf8Toks_wf s)
  have h1 := toks_length_le_encStr s
  rw [encStr] at h1
  simp only [List.length_append, List.length_cons]
  omega

/-- Valid UTF-8 byte strings: concatenations of canonical scalar
encodings. -/
def IsUtf8 (s : List Nat) : Prop :=
  ∃ rs : List Nat, (∀ r ∈ rs, Scalar r) ∧ s = (rs.map utf8Encode).flatten

/-- On valid UTF-8, the decoder's reconstruction is the identity. -/
theorem sanitize_utf8 {s : List Nat} (h : IsUtf8 s) : sanitize s = s := by
  obtain ⟨rs, hsc, rfl⟩ := h
  induction rs with
  | nil => rfl
  | cons r rs ih =>
    simp only [List.map_cons, List.flatten_cons]
    rw [sanitize, utf8Toks_encode (hsc r (List.mem_cons_self _ _))]
    simp only [List.map_cons, List.flatten_cons]
    have hrest : sanitize ((rs.map utf8Encode).flatten) = (rs.map utf8Encode).flatten :=
      ih (fun q hq => hsc q (List.mem_cons_of_mem _ hq))
    rw [sanitize] at hrest
    rw [hrest]
    by_cases h1 : r < 0x80
    · rw [if_pos h1, sanTok]
      have : utf8Encode r = [r] := by
        rw [utf8Encode, if_pos h1]
      rw [this]
    · rw [if_neg h1, sanTok]

/-!
## WAL command payloads

`walCommand` has fields `op`, `key`, and `value` (the last with
`omitempty`), serialized by `json.Marshal` in declaration order and read
back by `json.Unmarshal`, which parses the object, matches member names to
fields (later duplicates win, ASCII case folded as Go does), and requires
member values of string fields to be JSON strings.
-/

/-- A WAL mutation record: `walCommand{Op, Key, Value}`. -/
structure Cmd where
  op : Str
  key : Str
  value : Str
deriving DecidableEq, Repr

/-- The bytes of `"put"`. -/
def putLit : Str := [0x70, 0x75, 0x74]

/-- The bytes of `"swap"`. -/
def swapLit : Str := [0x73, 0x77, 0x61, 0x70]

/-- The bytes of `"delete"`. -/
def deleteLit : Str := [0x64, 0x65, 0x6c, 0x65, 0x74, 0x65]

/-- The bytes of the `op` field tag. -/
def opLit : Str := [0x6f, 0x70]

/-- The bytes of the `key` field tag. -/
def keyLit : Str := [0x6b, 0x65, 0x79]

/-- The bytes of the `value` field tag. -/
def valueLit : Str := [0x76, 0x61, 0x6c, 0x75, 0x65]

/-- `isValidOp`: the op string is `put`, `swap` or `delete`. -/
def isValidOp (op : Str) : Bool := op == putLit || op == swapLit || op == deleteLit

/-- `json.Marshal` of a `walCommand`: an object with `op` and `key`
members and, when the value is nonempty (`omitempty`), a `value` member;
member names and string values go through the string encoder. -/
def marshalCmd (c : Cmd) : List Nat :=
  0x7b :: 0x22 :: (encStr opLit ++ (0x22 :: 0x3a :: 0x22 :: (encStr c.op ++
    (0x22 :: 0x2c :: 0x22 :: (encStr keyLit ++ (0x22 :: 0x3a :: 0x22 :: (encStr c.key ++
      (if c.value = [] then [0x22, 0x7d]
       else 0x22 :: 0x2c :: 0x22 :: (encStr valueLit ++ (0x22 :: 0x3a :: 0x22 ::
         (encStr c.value ++ [0x22, 0x7d])))))))))))

/-- Skip JSON whitespace. -/
def skipWs : List Nat → List Nat
  | b :: bs => if b = 0x20 ∨ b = 0x09 ∨ b = 0x0a ∨ b = 0x0d then skipWs bs else b :: bs
  | [] => []

/-- Parse the members of a JSON object from just after `{` (or after a
comma): name string, colon, string value, then a comma (more members) or
the closing brace.  Fuel bounds the member count; each member consumes at
least one byte. -/
def parseMembersF : Nat → List Nat → Option (List (Str × Str) × List Nat)
  | 0, _ => none
  | fuel + 1, bs =>
    match skipWs bs with
    | b :: r =>
      if b = 0x22 then
        match parseStr r with
        | some (name, r1) =>
          match skipWs r1 with
          | c :: r2 =>
            if c = 0x3a then
              match skipWs r2 with
              | q :: r3 =>
                if q = 0x22 then
                  match parseStr r3 with
                  | some (val, r4) =>
                    match skipWs r4 with
                    | s :: r5 =>
                      if s = 0x2c then
                        match parseMembersF fuel r5 with
                        | some (fs, rest) => some ((name, val) :: fs, rest)
                        | none => none
                      else if s = 0x7d then some ([(name, val)], r5)
                      else none
                    | [] => none
                  | none => none
                else none
              | [] => none
            else none
          | [] => none
        | none => none
      else none
    | [] => none

/-- ASCII case folding for member-name matching (Go matches field names
case-insensitively when no exact match exists; the tags here are
lower-case ASCII). -/
def lowerB (b : Nat) : Nat := if 0x41 ≤ b ∧ b ≤ 0x5a then b + 32 else b

/-- Member-name equality up to ASCII case. -/
def eqFold (a b : Str) : Bool := a.map lowerB == b.map lowerB

/-- Build the `walCommand` from the parsed members: fields start at their
zero values, each matching member assigns its field, later members win. -/
def fieldsToCmd (fs : List (Str × Str)) : Cmd :=
  fs.foldl (fun c nv =>
    if eqFold nv.1 opLit then { c with op := nv.2 }
    else if eqFold nv.1 keyLit then { c with key := nv.2 }
    else if eqFold nv.1 valueLit then { c with value := nv.2 }
    else c) ⟨[], [], []⟩

/-- `json.Unmarshal` of a payload into a `walCommand`: whitespace, the
object with its members, trailing whitespace only. -/
def unmarshalCmd (bs : List Nat) : Option Cmd :=
  match skipWs bs with
  | b :: r =>
    if b = 0x7b then
      match skipWs r with
      | c :: r2 =>
        if c = 0x7d then (if skipWs r2 = [] then some ⟨[], [], []⟩ else none)
        else
          match parseMembersF (r.length + 1) r with
          | some (fs, rest) => if skipWs rest = [] then some (fieldsToCmd fs) else none
          | none => none
      | [] => none
    else none
  | [] => none

/-- What replay does with one payload: decode it and reject an unknown
op (`json.Unmarshal` followed by the `isValidOp` check). -/
def decodePayload (payload : List Nat) : Option Cmd :=
  match unmarshalCmd payload with
  | some c => if isValidOp c.op then some c else none
  | none => none

theorem skipWs_id {b : Nat} (h : ¬(b = 0x20 ∨ b = 0x09 ∨ b = 0x0a ∨ b = 0x0d))
    (bs : List Nat) : skipWs (b :: bs) = b :: bs := by
  rw [skipWs, if_neg h]

/-- Parse one member followed by a comma and further members. -/
theorem parseMembersF_comma {fuel : Nat} {tail : List Nat} {fs : List (Str × Str)}
    {rest : List Nat} (name v : Str)
    (h : parseMembersF fuel tail = some (fs, rest)) :
    parseMembersF (fuel + 1)
      (0x22 :: (encStr name ++ (0x22 :: 0x3a :: 0x22 ::
        (encStr v ++ (0x22 :: 0x2c :: tail))))) =
      some ((sanitize name, sanitize v) :: fs, rest) := by
  rw [parseMembersF, skipWs_id (by decide)]
  dsimp only
  rw [if_pos rfl, parseStr_encStr]
  dsimp only
  rw [skipWs_id (by decide)]
  dsimp only
  rw [if_pos rfl, skipWs_id (by decide)]
  dsimp only
  rw [if_pos rfl, parseStr_encStr]
  dsimp only
  rw [skipWs_id (by decide)]
  dsimp only
  rw [if_pos rfl, h]

/-- Parse the final member followed by the closing brace. -/
theorem parseMembersF_brace (fuel : Nat) (name v : Str) (tail : List Nat) :
    parseMembersF (fuel + 1)
      (0x22 :: (encStr name ++ (0x22 :: 0x3a :: 0x22 ::
        (encStr v ++ (0x22 :: 0x7d :: tail))))) =
      some ([(sanitize name, sanitize v)], tail) := by
  rw [parseMembersF, skipWs_id (by decide)]
  dsimp only
  rw [if_pos rfl, parseStr_encStr]
  dsimp only
  rw [skipWs_id (by decide)]
  dsimp only
  rw [if_pos rfl, skipWs_id (by decide)]
  dsimp only
  rw [if_pos rfl, parseStr_encStr]
  dsimp only
  rw [skipWs_id (by decide)]
  dsimp only
  rw [if_neg (by decide), if_pos rfl]

/-- Three members then the closing brace, from any sufficient fuel. -/
theorem parseMembers_three {f : Nat} (h3 : 3 ≤ f) (n1 v1 n2 v2 n3 v3 : Str)
    (tail : List Nat) :
    parseMembersF f
      (0x22 :: (encStr n1 ++ (0x22 :: 0x3a :: 0x22 :: (encStr v1 ++ (0x22 :: 0x2c ::
        0x22 :: (encStr n2 ++ (0x22 :: 0x3a :: 0x22 :: (encStr v2 ++ (0x22 :: 0x2c ::
          0x22 :: (encStr n3 ++ (0x22 :: 0x3a :: 0x22 ::
            (encStr v3 ++ (0x22 :: 0x7d :: tail))))))))))))) =
      some ([(sanitize n1, sanitize v1), (sanitize n2, sanitize v2),
        (sanitize n3, sanitize v3)], tail) := by
  obtain ⟨m, rfl⟩ : ∃ m, f = m + 3 := ⟨f - 3, by omega⟩
  exact parseMembersF_comma n1 v1
    (parseMembersF_comma n2 v2 (parseMembersF_brace m n3 v3 tail))

/-- `json.Unmarshal (json.Marshal cmd)` recovers the command with each
string field coerced to valid UTF-8 (Go's replacement-rune behaviour). -/
theorem unmarshal_marshal (cmd : Cmd) :
    unmarshalCmd (marshalCmd cmd) =
      some ⟨sanitize cmd.op, sanitize cmd.key, sanitize cmd.value⟩ := by
  have hop : sanitize opLit = opLit := by decide
  have hkey : sanitize keyLit = keyLit := by decide
  have hval : sanitize valueLit = valueLit := by decide
  by_cases hv : cmd.value = []
  · rw [marshalCmd, if_pos hv]
    rw [unmarshalCmd, skipWs_id (by decide)]
    dsimp only
    rw [if_pos rfl, skipWs_id (by decide)]
    dsimp only
    rw [if_neg (by decide)]
    have hlen : (0x22 :: (encStr opLit ++ (0x22 :: 0x3a :: 0x22 :: (encStr cmd.op ++
        (0x22 :: 0x2c :: 0x22 :: (encStr keyLit ++ (0x22 :: 0x3a :: 0x22 ::
          (encStr cmd.key ++ [0x22, 0x7d])))))))).length =
        (encStr opLit ++ (0x22 :: 0x3a :: 0x22 :: (encStr cmd.op ++
        (0x22 :: 0x2c :: 0x22 :: (encStr keyLit ++ (0x22 :: 0x3a :: 0x22 ::
          (encStr cmd.key ++ [0x22, 0x7d]))))))).length + 1 := rfl
    rw [hlen]
    rw [parseMembersF_comma opLit cmd.op (parseMembersF_brace _ keyLit cmd.key [])]
    dsimp only
    rw [skipWs]
    rw [if_pos rfl]
    rw [hop, hkey]
    simp only [fieldsToCmd, List.foldl_cons, List.foldl_nil]
    rw [if_pos (show eqFold opLit opLit = true by decide)]
    rw [if_neg (show ¬ eqFold keyLit opLit = true by decide),
      if_pos (show eqFold keyLit keyLit = true by decide)]
    rw [hv]
    rfl
  · rw [marshalCmd, if_neg hv]
    rw [unmarshalCmd, skipWs_id (by decide)]
    dsimp only
    rw [if_pos rfl, skipWs_id (by decide)]
    dsimp only
    rw [if_neg (by decide)]
    rw [parseMembers_three
      (by simp only [List.length_cons, List.length_append]; omega)
      opLit cmd.op keyLit cmd.key valueLit cmd.value []]
    dsimp only
    rw [skipWs]
    rw [if_pos rfl]
    rw [hop, hkey, hval]
    simp only [fieldsToCmd, List.foldl_cons, List.foldl_nil]
    rw [if_pos (show eqFold opLit opLit = true by decide)]
    rw [if_neg (show ¬ eqFold keyLit opLit = true by decide),
      if_pos (show eqFold keyLit keyLit = true by decide)]
    rw [if_neg (show ¬ eqFold valueLit opLit = true by decide),
      if_neg (show ¬ eqFold valueLit keyLit = true by decide),
      if_pos (show eqFold valueLit valueLit = true by decide)]

/-- The command as decoding recovers it: every string field coerced to
valid UTF-8. -/
def sanitizeCmd (c : Cmd) : Cmd := ⟨sanitize c.op, sanitize c.key, sanitize c.value⟩

/-- The keys and values of a command are valid UTF-8 (its op is checked
separately by `isValidOp`). -/
def Utf8Cmd (c : Cmd) : Prop := IsUtf8 c.key ∧ IsUtf8 c.value

theorem validOp_cases {op : Str} (h : isValidOp op = true) :
    op = putLit ∨ op = swapLit ∨ op = deleteLit := by
  rw [isValidOp] at h
  simp only [Bool.or_eq_true, beq_iff_eq] at h
  tauto

theorem sanitize_validOp {op : Str} (h : isValidOp op = true) : sanitize op = op := by
  rcases validOp_cases h with h | h | h <;> subst h <;> decide

theorem sanitizeCmd_eq {c : Cmd} (hop : isValidOp c.op = true) (hu : Utf8Cmd c) :
    sanitizeCmd c = c := by
  obtain ⟨hk, hv⟩ := hu
  rw [sanitizeCmd, sanitize_validOp hop, sanitize_utf8 hk, sanitize_utf8 hv]

/-!
## WAL frames, append and replay

`appendWAL` frames the JSON payload with a 4-byte big-endian length and the
1 KiB (`maxWALFrameSize`) bound; `replayWAL` reads frames from the start,
treats a short read of the length or of the payload as a trailing partial
frame (recovery succeeds there), rejects oversized frames, decode failures
and unknown ops, and applies each decoded command.
-/

/-- `maxWALFrameSize = 1 << 10`. -/
def maxWALFrameSize : Nat := 1024

/-- The 4-byte big-endian length prefix (`binary.BigEndian.PutUint32`). -/
def lenBE (n : Nat) : List Nat :=
  [n / 16777216 % 256, n / 65536 % 256, n / 256 % 256, n % 256]

/-- `binary.BigEndian.Uint32` of four bytes. -/
def be32 (b0 b1 b2 b3 : Nat) : Nat := b0 * 16777216 + b1 * 65536 + b2 * 256 + b3

theorem be32_lenBE {n : Nat} (h : n < 4294967296) :
    be32 (n / 16777216 % 256) (n / 65536 % 256) (n / 256 % 256) (n % 256) = n := by
  rw [be32]
  omega

/-- One framed payload: length prefix then payload bytes. -/
def frameOf (payload : List Nat) : List Nat := lenBE payload.length ++ payload

/-- `applyCommand`: `put` and `swap` upsert, `delete` removes, anything
else falls through the switch and does nothing. -/
def applyCommand (t : Tree) (c : Cmd) : Tree :=
  if c.op = putLit ∨ c.op = swapLit then upsert c.key c.value t
  else if c.op = deleteLit then removeKey c.key t
  else t

/-- The replay loop of `replayWAL`, applying commands to the index as it
reads frames.  Fewer than four remaining bytes is EOF or a trailing
partial length prefix (both end replay successfully, as in the source); a
truncated payload is a trailing partial frame; an oversized announced
length, a payload that fails to decode, or an unknown op abort replay.
Fuel only bounds the iteration count; every frame consumes at least four
bytes. -/
def replayLoopF : Nat → Tree → List Nat → Option Tree
  | 0, _, _ => none
  | fuel + 1, t, bs =>
    match bs with
    | [] => some t
    | [_] => some t
    | [_, _] => some t
    | [_, _, _] => some t
    | b0 :: b1 :: b2 :: b3 :: rest =>
      if maxWALFrameSize < be32 b0 b1 b2 b3 then none
      else if rest.length < be32 b0 b1 b2 b3 then some t
      else
        match decodePayload (rest.take (be32 b0 b1 b2 b3)) with
        | some c => replayLoopF fuel (applyCommand t c) (rest.drop (be32 b0 b1 b2 b3))
        | none => none

/-- `replayWAL` over the log's bytes, from the empty index. -/
def replayWAL (bs : List Nat) : Option Tree := replayLoopF (bs.length + 1) [] bs

/-- The sequence of records replay recovers (the same frame walk,
collecting the decoded commands instead of applying them). -/
def replayCmdsF : Nat → List Nat → Option (List Cmd)
  | 0, _ => none
  | fuel + 1, bs =>
    match bs with
    | [] => some []
    | [_] => some []
    | [_, _] => some []
    | [_, _, _] => some []
    | b0 :: b1 :: b2 :: b3 :: rest =>
      if maxWALFrameSize < be32 b0 b1 b2 b3 then none
      else if rest.length < be32 b0 b1 b2 b3 then some []
      else
        match decodePayload (rest.take (be32 b0 b1 b2 b3)) with
        | some c =>
          match replayCmdsF fuel (rest.drop (be32 b0 b1 b2 b3)) with
          | some cs => some (c :: cs)
          | none => none
        | none => none

/-- The records recovered from a log. -/
def replayCmds (bs : List Nat) : Option (List Cmd) := replayCmdsF (bs.length + 1) bs

/-- The log bytes of a sequence of appended records. -/
def framesOf (cs : List Cmd) : List Nat :=
  (cs.map (fun c => frameOf (marshalCmd c))).flatten

/-!
## File-backed server

`kvServer{tree, logFile}` with the handler bodies of `Put`, `Get`, `Swap`,
`Delete`, `Scan` under the mutex, plus `newKVServer`'s recovery.  The state
records the file contents and the write position (always the end of the
file in reachable states: `newKVServer` seeks to the end after replay and
appends keep it there).  A mutation's append step takes an I/O outcome:
`none` is a successful write-and-sync; `some n` is a write or sync failure
after `n` bytes of the frame reached the file (for `n` at least the frame
length: the whole frame was written and `Sync` failed). -/
structure StateF where
  tree : Tree
  log : List Nat
  pos : Nat
deriving DecidableEq, Repr

/-- `appendWAL`: validate the op, marshal, bound-check, then write the
frame at the current position and sync.  Returns the new state and whether
the append succeeded; on failure nothing later runs, but written bytes
stay in the file. -/
def appendWAL (s : StateF) (c : Cmd) (io : Option Nat) : StateF × Bool :=
  if isValidOp c.op = false then (s, false)
  else if maxWALFrameSize < (marshalCmd c).length then (s, false)
  else
    match io with
    | none =>
      ({ s with
          log := s.log.take s.pos ++ frameOf (marshalCmd c),
          pos := s.pos + (frameOf (marshalCmd c)).length }, true)
    | some n =>
      ({ s with
          log := s.log.take s.pos ++ (frameOf (marshalCmd c)).take n,
          pos := s.pos + ((frameOf (marshalCmd c)).take n).length }, false)

/-- Replies of the five RPCs (absent strings are the proto zero value). -/
inductive Reply where
  | putR (found : Bool)
  | getR (found : Bool) (value : Str)
  | swapR (found : Bool) (old : Str)
  | delR (found : Bool)
  | scanR (pairs : List (Str × Str))
deriving DecidableEq, Repr

/-- Requests of the five RPCs. -/
inductive Req where
  | putQ (k v : Str)
  | getQ (k : Str)
  | swapQ (k v : Str)
  | delQ (k : Str)
  | scanQ (a b : Str)
deriving DecidableEq, Repr

/-- `Put`: read the previous value, append, apply, reply `found`. -/
def putF (s : StateF) (k v : Str) (io : Option Nat) : StateF × Option Reply :=
  let prev := treeGet k s.tree
  let r := appendWAL s ⟨putLit, k, v⟩ io
  if r.2 then ({ r.1 with tree := applyCommand r.1.tree ⟨putLit, k, v⟩ },
    some (.putR prev.isSome))
  else (r.1, none)

/-- `Get`: lookup only. -/
def getF (s : StateF) (k : Str) : StateF × Option Reply :=
  match treeGet k s.tree with
  | none => (s, some (.getR false []))
  | some v => (s, some (.getR true v))

/-- `Swap`: read the previous value, append, apply, reply with it. -/
def swapF (s : StateF) (k v : Str) (io : Option Nat) : StateF × Option Reply :=
  let prev := treeGet k s.tree
  let r := appendWAL s ⟨swapLit, k, v⟩ io
  if r.2 then
    ({ r.1 with tree := applyCommand r.1.tree ⟨swapLit, k, v⟩ },
      some (match prev with
        | none => .swapR false []
        | some old => .swapR true old))
  else (r.1, none)

/-- `Delete`: read presence, append (also for an absent key), apply, reply
`found`. -/
def delF (s : StateF) (k : Str) (io : Option Nat) : StateF × Option Reply :=
  let del := treeGet k s.tree
  let r := appendWAL s ⟨deleteLit, k, []⟩ io
  if r.2 then ({ r.1 with tree := applyCommand r.1.tree ⟨deleteLit, k, []⟩ },
    some (.delR del.isSome))
  else (r.1, none)

/-- `Scan`: ascend from the start key, stop past the end key. -/
def scanF (s : StateF) (a b : Str) : StateF × Option Reply :=
  (s, some (.scanR (scanPairs s.tree a b)))

/-- One request against the file-backed server. -/
def stepF (s : StateF) : Req → Option Nat → StateF × Option Reply
  | .putQ k v, io => putF s k v io
  | .getQ k, _ => getF s k
  | .swapQ k v, io => swapF s k v io
  | .delQ k, io => delF s k io
  | .scanQ a b, _ => scanF s a b

/-- `newKVServer`: replay the log into an empty index, then position the
log at its end for subsequent appends; abort startup on a replay error. -/
def newKVServer (log : List Nat) : Option StateF :=
  match replayWAL log with
  | some t => some ⟨t, log, log.length⟩
  | none => none

/-- Run a list of requests with their I/O outcomes, collecting replies. -/
def execF : StateF → List (Req × Option Nat) → StateF × List (Option Reply)
  | s, [] => (s, [])
  | s, (r, io) :: evs =>
    let p := stepF s r io
    let q := execF p.1 evs
    (q.1, p.2 :: q.2)

/-!
## Embedded-database-backed server

The second variant (`kvServer{tree, db}`): the log is a `wal_log` table of
`(seq AUTOINCREMENT, payload BLOB)` rows read back in ascending `seq`
order, the payload being `proto.Marshal` of a `kvpb.WALCommand`.  The
generated protobuf codec (`madkv/kvstore/gen/kvpb`, generated code not
present under the repository sources) round-trips a record exactly (the
spec's self-describing structured form), so a row is modelled as holding
the record itself; the enumerated opcodes `OP_PUT`, `OP_SWAP`, `OP_DELETE`
are identified with the op strings of the shared record type.  An insert
either commits fully (synchronous commit) or fails leaving the table
unchanged. -/
structure StateQ where
  tree : Tree
  rows : List Cmd
deriving DecidableEq, Repr

/-- `appendLog`: validate, marshal, insert one row; a failed `Exec`
(`ok = false`) changes nothing. -/
def appendLogQ (s : StateQ) (c : Cmd) (ok : Bool) : StateQ × Bool :=
  if isValidOp c.op = false then (s, false)
  else if ok then ({ s with rows := s.rows ++ [c] }, true)
  else (s, false)

/-- `replayLog`: scan rows in insertion order, reject unknown ops, apply
each command. -/
def replayLogQ : Tree → List Cmd → Option Tree
  | t, [] => some t
  | t, c :: cs => if isValidOp c.op then replayLogQ (applyCommand t c) cs else none

/-- `newKVServer` (database variant): replay all rows from empty. -/
def newKVServerQ (rows : List Cmd) : Option StateQ :=
  match replayLogQ [] rows with
  | some t => some ⟨t, rows⟩
  | none => none

/-- `Put` against the database-backed server. -/
def putQ (s : StateQ) (k v : Str) (ok : Bool) : StateQ × Option Reply :=
  let prev := treeGet k s.tree
  let r := appendLogQ s ⟨putLit, k, v⟩ ok
  if r.2 then ({ r.1 with tree := applyCommand r.1.tree ⟨putLit, k, v⟩ },
    some (.putR prev.isSome))
  else (r.1, none)

/-- `Get` against the database-backed server (same body as file-backed). -/
def getQ (s : StateQ) (k : Str) : StateQ × Option Reply :=
  match treeGet k s.tree with
  | none => (s, some (.getR false []))
  | some v => (s, some (.getR true v))

/-- `Swap` against the database-backed server. -/
def swapQ (s : StateQ) (k v : Str) (ok : Bool) : StateQ × Option Reply :=
  let prev := treeGet k s.tree
  let r := appendLogQ s ⟨swapLit, k, v⟩ ok
  if r.2 then
    ({ r.1 with tree := applyCommand r.1.tree ⟨swapLit, k, v⟩ },
      some (match prev with
        | none => .swapR false []
        | some old => .swapR true old))
  else (r.1, none)

/-- `Delete` against the database-backed server. -/
def delQ (s : StateQ) (k : Str) (ok : Bool) : StateQ × Option Reply :=
  let del := treeGet k s.tree
  let r := appendLogQ s ⟨deleteLit, k, []⟩ ok
  if r.2 then ({ r.1 with tree := applyCommand r.1.tree ⟨deleteLit, k, []⟩ },
    some (.delR del.isSome))
  else (r.1, none)

/-- `Scan` against the database-backed server (same body as file-backed). -/
def scanQ (s : StateQ) (a b : Str) : StateQ × Option Reply :=
  (s, some (.scanR (scanPairs s.tree a b)))

/-- One request against the database-backed server. -/
def stepQ (s : StateQ) : Req → Bool → StateQ × Option Reply
  | .putQ k v, ok => putQ s k v ok
  | .getQ k, _ => getQ s k
  | .swapQ k v, ok => swapQ s k v ok
  | .delQ k, ok => delQ s k ok
  | .scanQ a b, _ => scanQ s a b

/-- Run requests with all inserts succeeding, collecting replies. -/
def execQ : StateQ → List Req → StateQ × List (Option Reply)
  | s, [] => (s, [])
  | s, r :: rs =>
    let p := stepQ s r true
    let q := execQ p.1 rs
    (q.1, p.2 :: q.2)

theorem replayLoopF_nil (fuel : Nat) (t : Tree) :
    replayLoopF (fuel + 1) t [] = some t := rfl

theorem replayCmdsF_nil (fuel : Nat) :
    replayCmdsF (fuel + 1) [] = some [] := rfl

/-- The recovery driver is the fold of the applier over the records that
replay recovers: applying while reading equals reading then folding. -/
theorem replayLoopF_cmds : ∀ (fuel : Nat) (t : Tree) (bs : List Nat),
    replayLoopF fuel t bs = (replayCmdsF fuel bs).map (List.foldl applyCommand t) := by
  intro fuel
  induction fuel with
  | zero => intro t bs; rfl
  | succ n ih =>
    intro t bs
    match bs with
    | [] => rfl
    | [_] => rfl
    | [_, _] => rfl
    | [_, _, _] => rfl
    | b0 :: b1 :: b2 :: b3 :: rest =>
      rw [replayLoopF, replayCmdsF]
      by_cases hsz : maxWALFrameSize < be32 b0 b1 b2 b3
      · rw [if_pos hsz, if_pos hsz]
        rfl
      · rw [if_neg hsz, if_neg hsz]
        by_cases hlen : rest.length < be32 b0 b1 b2 b3
        · rw [if_pos hlen, if_pos hlen]
          rfl
        · rw [if_neg hlen, if_neg hlen]
          cases hdec : decodePayload (rest.take (be32 b0 b1 b2 b3)) with
          | none => rfl
          | some c =>
            dsimp only
            rw [ih]
            cases replayCmdsF n (rest.drop (be32 b0 b1 b2 b3)) with
            | none => rfl
            | some cs => rfl

/-- Replaying one appended frame applies the decoded (sanitized) record
and continues with the remaining bytes. -/
theorem replayLoopF_frame {c : Cmd} (hop : isValidOp c.op = true)
    (hsz : (marshalCmd c).length ≤ maxWALFrameSize) (fuel : Nat) (t : Tree)
    (rest : List Nat) :
    replayLoopF (fuel + 1) t (frameOf (marshalCmd c) ++ rest) =
      replayLoopF fuel (applyCommand t (sanitizeCmd c)) rest := by
  have hb : be32 ((marshalCmd c).length / 16777216 % 256)
      ((marshalCmd c).length / 65536 % 256) ((marshalCmd c).length / 256 % 256)
      ((marshalCmd c).length % 256) = (marshalCmd c).length :=
    be32_lenBE (by rw [maxWALFrameSize] at hsz; omega)
  rw [frameOf, lenBE]
  simp only [List.cons_append, List.nil_append, List.append_assoc]
  rw [replayLoopF, hb]
  rw [if_neg (by rw [maxWALFrameSize] at hsz ⊢; omega)]
  rw [if_neg (by simp only [List.length_append]; omega)]
  rw [List.take_left, List.drop_left]
  have hdec : decodePayload (marshalCmd c) = some (sanitizeCmd c) := by
    rw [decodePayload, unmarshal_marshal]
    dsimp only
    rw [if_pos (show isValidOp (sanitize c.op) = true by
      rw [sanitize_validOp hop]; exact hop)]
    rfl
  rw [hdec]

/-- Reading one appended frame recovers the decoded (sanitized) record. -/
theorem replayCmdsF_frame {c : Cmd} (hop : isValidOp c.op = true)
    (hsz : (marshalCmd c).length ≤ maxWALFrameSize) (fuel : Nat) (rest : List Nat) :
    replayCmdsF (fuel + 1) (frameOf (marshalCmd c) ++ rest) =
      match replayCmdsF fuel rest with
      | some cs => some (sanitizeCmd c :: cs)
      | none => none := by
  have hb : be32 ((marshalCmd c).length / 16777216 % 256)
      ((marshalCmd c).length / 65536 % 256) ((marshalCmd c).length / 256 % 256)
      ((marshalCmd c).length % 256) = (marshalCmd c).length :=
    be32_lenBE (by rw [maxWALFrameSize] at hsz; omega)
  rw [frameOf, lenBE]
  simp only [List.cons_append, List.nil_append, List.append_assoc]
  rw [replayCmdsF, hb]
  rw [if_neg (by rw [maxWALFrameSize] at hsz ⊢; omega)]
  rw [if_neg (by simp only [List.length_append]; omega)]
  rw [List.take_left, List.drop_left]
  have hdec : decodePayload (marshalCmd c) = some (sanitizeCmd c) := by
    rw [decodePayload, unmarshal_marshal]
    dsimp only
    rw [if_pos (show isValidOp (sanitize c.op) = true by
      rw [sanitize_validOp hop]; exact hop)]
    rfl
  rw [hdec]

/-- A record is well formed for the WAL when its op is valid and its
payload respects the frame bound. -/
def WFCmd (c : Cmd) : Prop :=
  isValidOp c.op = true ∧ (marshalCmd c).length ≤ maxWALFrameSize

/-- Replay over appended frames applies the sanitized records in order. -/
theorem replayLoopF_frames (cs : List Cmd) (h : ∀ c ∈ cs, WFCmd c) :
    ∀ (fuel : Nat) (t : Tree) (suffix : List Nat),
      replayLoopF (fuel + cs.length) t (framesOf cs ++ suffix) =
        replayLoopF fuel
          (List.foldl (fun t c => applyCommand t (sanitizeCmd c)) t cs) suffix := by
  induction cs with
  | nil =>
    intro fuel t suffix
    simp only [framesOf, List.map_nil, List.flatten_nil, List.nil_append,
      List.length_nil, Nat.add_zero, List.foldl_nil]
  | cons c cs ih =>
    intro fuel t suffix
    have hc := h c (List.mem_cons_self _ _)
    simp only [framesOf, List.map_cons, List.flatten_cons, List.length_cons,
      List.append_assoc, List.foldl_cons]
    have hfuel : fuel + (cs.length + 1) = (fuel + cs.length) + 1 := by omega
    rw [hfuel, replayLoopF_frame hc.1 hc.2]
    have := ih (fun q hq => h q (List.mem_cons_of_mem _ hq)) fuel
      (applyCommand t (sanitizeCmd c)) suffix
    rw [← this]
    rfl

/-- Reading appended frames recovers the sanitized records in order. -/
theorem replayCmdsF_frames (cs : List Cmd) (h : ∀ c ∈ cs, WFCmd c) :
    ∀ (fuel : Nat) (suffix : List Nat),
      replayCmdsF (fuel + cs.length) (framesOf cs ++ suffix) =
        (replayCmdsF fuel suffix).map (fun ds => cs.map sanitizeCmd ++ ds) := by
  induction cs with
  | nil =>
    intro fuel suffix
    simp only [framesOf, List.map_nil, List.flatten_nil, List.nil_append,
      List.length_nil, Nat.add_zero]
    cases replayCmdsF fuel suffix <;> rfl
  | cons c cs ih =>
    intro fuel suffix
    have hc := h c (List.mem_cons_self _ _)
    simp only [framesOf, List.map_cons, List.flatten_cons, List.length_cons,
      List.append_assoc]
    have hfuel : fuel + (cs.length + 1) = (fuel + cs.length) + 1 := by omega
    rw [hfuel, replayCmdsF_frame hc.1 hc.2]
    have hih := ih (fun q hq => h q (List.mem_cons_of_mem _ hq)) fuel suffix
    rw [show (List.map (fun c => frameOf (marshalCmd c)) cs).flatten ++ suffix =
      framesOf cs ++ suffix from rfl, hih]
    cases replayCmdsF fuel suffix <;> rfl

/-- Every frame is at least its four length bytes. -/
theorem length_le_framesOf (cs : List Cmd) : cs.length ≤ (framesOf cs).length := by
  induction cs with
  | nil => simp [framesOf]
  | cons c cs ih =>
    simp only [framesOf, List.map_cons, List.flatten_cons, List.length_append,
      List.length_cons] at ih ⊢
    have : 4 ≤ (frameOf (marshalCmd c)).length := by
      rw [frameOf, lenBE]
      simp
    omega

/-- Recovery of a log of appended frames rebuilds the fold of the
sanitized records. -/
theorem replayWAL_frames (cs : List Cmd) (h : ∀ c ∈ cs, WFCmd c) :
    replayWAL (framesOf cs) =
      some (List.foldl (fun t c => applyCommand t (sanitizeCmd c)) [] cs) := by
  have hlen := length_le_framesOf cs
  obtain ⟨m, hm⟩ : ∃ m, (framesOf cs).length + 1 = (m + 1) + cs.length :=
    ⟨(framesOf cs).length - cs.length, by omega⟩
  rw [replayWAL, hm, ← List.append_nil (framesOf cs),
    replayLoopF_frames cs h (m + 1) [] [], replayLoopF_nil]

/-- Reading a log of appended frames yields the sanitized records, in
order, exactly once. -/
theorem replayCmds_frames (cs : List Cmd) (h : ∀ c ∈ cs, WFCmd c) :
    replayCmds (framesOf cs) = some (cs.map sanitizeCmd) := by
  have hlen := length_le_framesOf cs
  obtain ⟨m, hm⟩ : ∃ m, (framesOf cs).length + 1 = (m + 1) + cs.length :=
    ⟨(framesOf cs).length - cs.length, by omega⟩
  rw [replayCmds, hm, ← List.append_nil (framesOf cs),
    replayCmdsF_frames cs h (m + 1) [], replayCmdsF_nil]
  simp

/-!
## Scan, fold and append facts
-/

/-- On a key-sorted list, stopping at the first key past `b` is the same
as filtering: later entries only have larger keys. -/
theorem takeWhile_eq_filter_of_sorted {l : List (Str × Str)}
    (h : l.Pairwise (fun p q => ltS p.1 q.1 = true)) (b : Str) :
    l.takeWhile (fun p => leS p.1 b) = l.filter (fun p => leS p.1 b) := by
  induction l with
  | nil => rfl
  | cons x l ih =>
    rw [List.pairwise_cons] at h
    cases hx : leS x.1 b with
    | true =>
      rw [List.takeWhile_cons, List.filter_cons, hx]
      rw [if_pos rfl, if_pos rfl, ih h.2]
    | false =>
      rw [List.takeWhile_cons, List.filter_cons, hx]
      simp only [Bool.false_eq_true, if_false, reduceCtorEq]
      symm
      rw [List.filter_eq_nil_iff]
      intro q hq
      cases hq2 : leS q.1 b with
      | false => simp
      | true =>
        exfalso
        have hlt : ltS x.1 q.1 = true := h.1 q hq
        have := leS_trans (leS_of_ltS hlt) hq2
        rw [this] at hx
        exact Bool.noConfusion hx

/-- `Scan` returns exactly the entries in the inclusive range. -/
theorem scanPairs_eq_filter {t : Tree} (h : SortedT t) (a b : Str) :
    scanPairs t a b = t.filter (fun p => leS a p.1 && leS p.1 b) := by
  rw [scanPairs, takeWhile_eq_filter_of_sorted (List.Pairwise.filter _ h)]
  rw [List.filter_filter]
  congr 1
  funext p
  rw [Bool.and_comm]

/-- `Scan` output is strictly ascending by key. -/
theorem scanPairs_sorted {t : Tree} (h : SortedT t) (a b : Str) :
    (scanPairs t a b).Pairwise (fun p q => ltS p.1 q.1 = true) := by
  rw [scanPairs_eq_filter h]
  exact List.Pairwise.filter _ h

/-- An inverted range scans to nothing. -/
theorem scanPairs_empty {t : Tree} (h : SortedT t) {a b : Str}
    (hab : ltS b a = true) : scanPairs t a b = [] := by
  rw [scanPairs_eq_filter h, List.filter_eq_nil_iff]
  intro p hp
  cases h1 : leS a p.1 with
  | false => simp
  | true =>
    cases h2 : leS p.1 b with
    | false => simp
    | true =>
      exfalso
      have := leS_trans h1 h2
      rw [leS, hab] at this
      exact Bool.noConfusion this

/-- A stored key scans to exactly its own entry on the point range. -/
theorem scanPairs_self {t : Tree} (h : SortedT t) {k v : Str}
    (hget : treeGet k t = some v) : scanPairs t k k = [(k, v)] := by
  rw [scanPairs_eq_filter h]
  induction t with
  | nil => cases hget
  | cons p t ih =>
    obtain ⟨k0, v0⟩ := p
    rw [SortedT, List.pairwise_cons] at h
    rw [treeGet] at hget
    by_cases hk : k0 = k
    · subst hk
      rw [if_pos rfl] at hget
      injection hget with hv
      subst hv
      rw [List.filter_cons]
      rw [if_pos (by rw [leS_refl]; rfl)]
      congr 1
      rw [List.filter_eq_nil_iff]
      intro q hq
      have hlt : ltS k0 q.1 = true := h.1 q hq
      cases h1 : leS k0 q.1 <;> cases h2 : leS q.1 k0 <;> simp
      have := ltS_of_ltS_of_leS hlt h2
      rw [ltS_irrefl] at this
      exact Bool.noConfusion this
    · rw [if_neg hk] at hget
      rw [List.filter_cons]
      have hcond : (leS k k0 && leS k0 k) = false := by
        cases h1 : leS k k0 with
        | false => rfl
        | true =>
          cases h2 : leS k0 k with
          | false => rfl
          | true =>
            exfalso
            simp only [leS, Bool.not_eq_true'] at h1 h2
            exact hk (ltS_total_eq h1 h2)
      rw [hcond]
      simp only [Bool.false_eq_true, if_false, reduceCtorEq]
      exact ih h.2 hget

/-- `applyCommand` keeps the index sorted. -/
theorem sorted_applyCommand {t : Tree} (h : SortedT t) (c : Cmd) :
    SortedT (applyCommand t c) := by
  rw [applyCommand]
  by_cases h1 : c.op = putLit ∨ c.op = swapLit
  · rw [if_pos h1]
    exact sorted_upsert _ _ h
  · rw [if_neg h1]
    by_cases h2 : c.op = deleteLit
    · rw [if_pos h2]
      exact sorted_removeKey _ h
    · rw [if_neg h2]
      exact h

theorem sorted_foldl_applyCommand {t : Tree} (h : SortedT t) (cs : List Cmd) :
    SortedT (List.foldl applyCommand t cs) := by
  induction cs generalizing t with
  | nil => exact h
  | cons c cs ih => exact ih (sorted_applyCommand h c)

/-- The effect on `k` of the last record touching `k`, looking from the
end of the record list: `some (some v)` when a `put`/`swap` of `v` was
last, `some none` when a `delete` was last, `none` when no record touched
`k`. -/
def lastAct : List Cmd → Str → Option (Option Str)
  | [], _ => none
  | c :: cs, k =>
    match lastAct cs k with
    | some o => some o
    | none =>
      if c.key = k then some (if c.op = deleteLit then none else some c.value)
      else none

/-- The value the last acknowledged mutation on `k` installed (absence for
a trailing delete or when nothing touched `k`). -/
def lastVal (cs : List Cmd) (k : Str) : Option Str := (lastAct cs k).getD none

/-- Folding the applier over records computes the last installed value:
what recovery makes visible to `GET`. -/
theorem treeGet_foldl_applyCommand (cs : List Cmd)
    (h : ∀ c ∈ cs, isValidOp c.op = true) :
    ∀ (t : Tree), SortedT t → ∀ (k : Str),
      treeGet k (List.foldl applyCommand t cs) =
        (lastAct cs k).getD (treeGet k t) := by
  induction cs with
  | nil => intro t _ k; rfl
  | cons c cs ih =>
    intro t hs k
    rw [List.foldl_cons, lastAct]
    have hc := h c (List.mem_cons_self _ _)
    have hrec := ih (fun q hq => h q (List.mem_cons_of_mem _ hq))
      (applyCommand t c) (sorted_applyCommand hs c) k
    rw [hrec]
    cases lastAct cs k with
    | some o => rfl
    | none =>
      dsimp only [Option.getD]
      by_cases hk : c.key = k
      · rw [if_pos hk]
        rcases validOp_cases hc with hop | hop | hop
        · rw [applyCommand, if_pos (Or.inl hop), hop]
          rw [if_neg (by rw [putLit, deleteLit]; simp)]
          rw [hk, treeGet_upsert_self]
        · rw [applyCommand, if_pos (Or.inr hop), hop]
          rw [if_neg (by rw [swapLit, deleteLit]; simp)]
          rw [hk, treeGet_upsert_self]
        · rw [applyCommand, hop]
          rw [if_neg (by rw [putLit, swapLit, deleteLit]; simp)]
          rw [if_pos rfl, if_pos rfl, hk]
          exact treeGet_removeKey_self k hs
      · rw [if_neg hk]
        rcases validOp_cases hc with hop | hop | hop
        · rw [applyCommand, if_pos (Or.inl hop)]
          exact treeGet_upsert_other hk _ t
        · rw [applyCommand, if_pos (Or.inr hop)]
          exact treeGet_upsert_other hk _ t
        · rw [applyCommand, hop]
          rw [if_neg (by rw [putLit, swapLit, deleteLit]; simp)]
          rw [if_pos rfl]
          exact treeGet_removeKey_other hk t

/-- Folding the applier over sanitized records equals folding over the
records themselves when ops are valid and keys and values are valid
UTF-8. -/
theorem foldl_sanitize (cs : List Cmd)
    (h : ∀ c ∈ cs, isValidOp c.op = true ∧ Utf8Cmd c) :
    ∀ t, List.foldl (fun t c => applyCommand t (sanitizeCmd c)) t cs =
      List.foldl applyCommand t cs := by
  induction cs with
  | nil => intro t; rfl
  | cons c cs ih =>
    intro t
    have hc := h c (List.mem_cons_self _ _)
    rw [List.foldl_cons, List.foldl_cons, sanitizeCmd_eq hc.1 hc.2]
    exact ih (fun q hq => h q (List.mem_cons_of_mem _ hq)) _

/-- Append a list of records, stopping at the first failure (a sequence
of `appendWAL` calls, all with successful I/O). -/
def appendAllF : StateF → List Cmd → StateF × Bool
  | s, [] => (s, true)
  | s, c :: cs =>
    let r := appendWAL s c none
    if r.2 then appendAllF r.1 cs else (r.1, false)

/-- A successful append run writes exactly the frames of its records after
the existing log, and each record respects the WAL bounds. -/
theorem appendAllF_ok (cs : List Cmd) :
    ∀ (s : StateF), s.pos = s.log.length → (appendAllF s cs).2 = true →
      (∀ c ∈ cs, WFCmd c) ∧
        (appendAllF s cs).1.log = s.log ++ framesOf cs ∧
        (appendAllF s cs).1.pos = (appendAllF s cs).1.log.length ∧
        (appendAllF s cs).1.tree = s.tree := by
  induction cs with
  | nil =>
    intro s hp _
    refine ⟨?_, ?_, ?_, rfl⟩
    · intro c hc
      cases hc
    · rw [appendAllF]
      simp [framesOf]
    · rw [appendAllF, hp]
  | cons c cs ih =>
    intro s hp hok
    by_cases hval : isValidOp c.op = false
    · rw [appendAllF] at hok
      rw [show appendWAL s c none = (s, false) from by rw [appendWAL, if_pos hval]]
        at hok
      simp at hok
    · by_cases hsz : maxWALFrameSize < (marshalCmd c).length
      · rw [appendAllF] at hok
        rw [show appendWAL s c none = (s, false) from by
          rw [appendWAL, if_neg hval, if_pos hsz]] at hok
        simp at hok
      · have happ : appendWAL s c none =
            ({ s with
                log := s.log ++ frameOf (marshalCmd c),
                pos := s.pos + (frameOf (marshalCmd c)).length }, true) := by
          rw [appendWAL, if_neg hval, if_neg hsz]
          rw [hp, List.take_length]
        have hstep : appendAllF s (c :: cs) =
            appendAllF ({ s with
                log := s.log ++ frameOf (marshalCmd c),
                pos := s.pos + (frameOf (marshalCmd c)).length }) cs := by
          rw [appendAllF, happ]
          rfl
        rw [hstep] at hok ⊢
        have hpos1 : ({ s with
            log := s.log ++ frameOf (marshalCmd c),
            pos := s.pos + (frameOf (marshalCmd c)).length } : StateF).pos =
            ({ s with
              log := s.log ++ frameOf (marshalCmd c),
              pos := s.pos + (frameOf (marshalCmd c)).length } : StateF).log.length := by
          dsimp only
          rw [hp]
          simp [List.length_append]
        obtain ⟨hwf, hlog, hpos, htree⟩ := ih _ hpos1 hok
        refine ⟨?_, ?_, hpos, htree⟩
        · intro q hq
          rcases List.mem_cons.mp hq with he | hm
          · subst he
            refine ⟨?_, by rw [maxWALFrameSize] at hsz ⊢; omega⟩
            cases hx : isValidOp q.op with
            | false => exact absurd hx hval
            | true => rfl
          · exact hwf q hm
        · rw [hlog]
          dsimp only
          simp only [framesOf, List.map_cons, List.flatten_cons, List.append_assoc]

/-!
## State invariants and backend equivalence
-/

/-- A request whose key and value byte strings are valid UTF-8. -/
def ReqWF : Req → Prop
  | .putQ k v => IsUtf8 k ∧ IsUtf8 v
  | .swapQ k v => IsUtf8 k ∧ IsUtf8 v
  | .delQ k => IsUtf8 k
  | .getQ _ => True
  | .scanQ _ _ => True

/-- File-backed states reachable without I/O failures: the log is exactly
the frames of the acknowledged records, the index is their fold, and the
write position is the end of the file. -/
def StateWF (s : StateF) : Prop :=
  ∃ cs : List Cmd, (∀ c ∈ cs, WFCmd c ∧ Utf8Cmd c) ∧
    s.log = framesOf cs ∧ s.tree = List.foldl applyCommand [] cs ∧
    s.pos = s.log.length

theorem map_sanitizeCmd_id {cs : List Cmd}
    (h : ∀ c ∈ cs, isValidOp c.op = true ∧ Utf8Cmd c) :
    cs.map sanitizeCmd = cs := by
  induction cs with
  | nil => rfl
  | cons c cs ih =>
    have hc := h c (List.mem_cons_self _ _)
    rw [List.map_cons, sanitizeCmd_eq hc.1 hc.2,
      ih (fun q hq => h q (List.mem_cons_of_mem _ hq))]

/-- In a well-formed state the log replays to exactly the live index. -/
theorem StateWF_replay {s : StateF} (h : StateWF s) :
    replayWAL s.log = some s.tree := by
  obtain ⟨cs, hcs, hlog, htree, -⟩ := h
  rw [hlog, htree, replayWAL_frames cs (fun c hc => (hcs c hc).1),
    foldl_sanitize cs (fun c hc => ⟨(hcs c hc).1.1, (hcs c hc).2⟩)]

/-- The empty fresh server is well formed. -/
theorem StateWF_init : StateWF ⟨[], [], 0⟩ :=
  ⟨[], fun c hc => absurd hc (List.not_mem_nil c), rfl, rfl, rfl⟩

/-- A successful append followed by applying the same record preserves
state well-formedness. -/
theorem appendApply_wf {s : StateF} (hs : StateWF s) {c : Cmd}
    (hval : isValidOp c.op = true) (hu : Utf8Cmd c) :
    StateWF (if (appendWAL s c none).2
      then { (appendWAL s c none).1 with
              tree := applyCommand (appendWAL s c none).1.tree c }
      else (appendWAL s c none).1) := by
  obtain ⟨cs, hcs, hlog, htree, hpos⟩ := hs
  by_cases hsz : maxWALFrameSize < (marshalCmd c).length
  · rw [show appendWAL s c none = (s, false) from by
      rw [appendWAL, if_neg (by rw [hval]; simp), if_pos hsz]]
    exact ⟨cs, hcs, hlog, htree, hpos⟩
  · rw [show appendWAL s c none =
        ({ s with
            log := s.log ++ frameOf (marshalCmd c),
            pos := s.pos + (frameOf (marshalCmd c)).length }, true) from by
      rw [appendWAL, if_neg (by rw [hval]; simp), if_neg hsz]
      rw [hpos, List.take_length]]
    dsimp only
    rw [if_pos rfl]
    refine ⟨cs ++ [c], ?_, ?_, ?_, ?_⟩
    · intro q hq
      rcases List.mem_append.mp hq with hm | hm
      · exact hcs q hm
      · rw [List.mem_singleton] at hm
        subst hm
        exact ⟨⟨hval, by omega⟩, hu⟩
    · dsimp only
      rw [hlog, framesOf, framesOf, List.map_append, List.flatten_append]
      simp
    · dsimp only
      rw [htree, List.foldl_append, List.foldl_cons, List.foldl_nil]
    · dsimp only
      rw [hpos]
      simp [List.length_append]

/-- Each of the five handlers preserves state well-formedness when run
with successful I/O on well-formed requests. -/
theorem stepF_wf {s : StateF} {r : Req} (hs : StateWF s) (hr : ReqWF r) :
    StateWF (stepF s r none).1 := by
  match r with
  | .getQ k =>
    rw [stepF, getF]
    cases treeGet k s.tree <;> exact hs
  | .scanQ a b => exact hs
  | .putQ k v =>
    have h := appendApply_wf hs (c := ⟨putLit, k, v⟩) rfl ⟨hr.1, hr.2⟩
    simp only [stepF, putF]
    cases hx : (appendWAL s ⟨putLit, k, v⟩ none).2 with
    | true =>
      rw [hx, if_pos rfl] at h
      rw [if_pos rfl]
      exact h
    | false =>
      rw [hx, if_neg (by simp)] at h
      rw [if_neg (by simp)]
      exact h
  | .swapQ k v =>
    have h := appendApply_wf hs (c := ⟨swapLit, k, v⟩) rfl ⟨hr.1, hr.2⟩
    simp only [stepF, swapF]
    cases hx : (appendWAL s ⟨swapLit, k, v⟩ none).2 with
    | true =>
      rw [hx, if_pos rfl] at h
      rw [if_pos rfl]
      exact h
    | false =>
      rw [hx, if_neg (by simp)] at h
      rw [if_neg (by simp)]
      exact h
  | .delQ k =>
    have h := appendApply_wf hs (c := ⟨deleteLit, k, []⟩) rfl
      ⟨hr, ⟨[], fun r hrr => absurd hrr (List.not_mem_nil r), rfl⟩⟩
    simp only [stepF, delF]
    cases hx : (appendWAL s ⟨deleteLit, k, []⟩ none).2 with
    | true =>
      rw [hx, if_pos rfl] at h
      rw [if_pos rfl]
      exact h
    | false =>
      rw [hx, if_neg (by simp)] at h
      rw [if_neg (by simp)]
      exact h

/-- `appendWAL` never touches the index. -/
theorem appendWAL_tree (s : StateF) (c : Cmd) (io : Option Nat) :
    (appendWAL s c io).1.tree = s.tree := by
  rw [appendWAL.eq_def]
  by_cases h1 : isValidOp c.op = false
  · rw [if_pos h1]
  · rw [if_neg h1]
    by_cases h2 : maxWALFrameSize < (marshalCmd c).length
    · rw [if_pos h2]
    · rw [if_neg h2]
      cases io <;> rfl

/-- `appendWAL` with an I/O failure reports failure. -/
theorem appendWAL_fail (s : StateF) (c : Cmd) (n : Nat) :
    (appendWAL s c (some n)).2 = false := by
  rw [appendWAL.eq_def]
  by_cases h1 : isValidOp c.op = false
  · rw [if_pos h1]
  · rw [if_neg h1]
    by_cases h2 : maxWALFrameSize < (marshalCmd c).length
    · rw [if_pos h2]
    · rw [if_neg h2]

/-- With equal indices and a successful file-backed step, the two
backends step to the same reply and to equal indices. -/
theorem step_bisim (r : Req) {sF : StateF} {sQ : StateQ}
    (h : sF.tree = sQ.tree) (hok : ((stepF sF r none).2).isSome = true) :
    (stepQ sQ r true).2 = (stepF sF r none).2 ∧
      (stepQ sQ r true).1.tree = (stepF sF r none).1.tree := by
  match r with
  | .getQ k =>
    rw [stepF, stepQ, getF, getQ, h]
    cases treeGet k sQ.tree <;> exact ⟨rfl, h.symm⟩
  | .scanQ a b =>
    rw [stepF, stepQ, scanF, scanQ, h]
    exact ⟨rfl, rfl⟩
  | .putQ k v =>
    simp only [stepF, putF] at hok ⊢
    cases hx : (appendWAL sF ⟨putLit, k, v⟩ none).2 with
    | false =>
      rw [hx, if_neg (by simp)] at hok
      simp at hok
    | true =>
      rw [if_pos rfl]
      have hq : appendLogQ sQ ⟨putLit, k, v⟩ true =
          ({ sQ with rows := sQ.rows ++ [⟨putLit, k, v⟩] }, true) := by
        rw [appendLogQ, if_neg (fun hcon => Bool.noConfusion hcon), if_pos rfl]
      simp only [stepQ, putQ, hq]
      rw [if_pos trivial]
      constructor
      · dsimp only
        rw [h]
      · dsimp only
        rw [appendWAL_tree, h]
  | .swapQ k v =>
    simp only [stepF, swapF] at hok ⊢
    cases hx : (appendWAL sF ⟨swapLit, k, v⟩ none).2 with
    | false =>
      rw [hx, if_neg (by simp)] at hok
      simp at hok
    | true =>
      rw [if_pos rfl]
      have hq : appendLogQ sQ ⟨swapLit, k, v⟩ true =
          ({ sQ with rows := sQ.rows ++ [⟨swapLit, k, v⟩] }, true) := by
        rw [appendLogQ, if_neg (fun hcon => Bool.noConfusion hcon), if_pos rfl]
      simp only [stepQ, swapQ, hq]
      rw [if_pos trivial]
      constructor
      · dsimp only
        rw [h]
      · dsimp only
        rw [appendWAL_tree, h]
  | .delQ k =>
    simp only [stepF, delF] at hok ⊢
    cases hx : (appendWAL sF ⟨deleteLit, k, []⟩ none).2 with
    | false =>
      rw [hx, if_neg (by simp)] at hok
      simp at hok
    | true =>
      rw [if_pos rfl]
      have hq : appendLogQ sQ ⟨deleteLit, k, []⟩ true =
          ({ sQ with rows := sQ.rows ++ [⟨deleteLit, k, []⟩] }, true) := by
        rw [appendLogQ, if_neg (fun hcon => Bool.noConfusion hcon), if_pos rfl]
      simp only [stepQ, delQ, hq]
      rw [if_pos trivial]
      constructor
      · dsimp only
        rw [h]
      · dsimp only
        rw [appendWAL_tree, h]

/-- Reply-sequence equality of the two backends over any request list in
which every file-backed reply is a success. -/
theorem exec_bisim (reqs : List Req) : ∀ (sF : StateF) (sQ : StateQ),
    sF.tree = sQ.tree →
    (∀ x ∈ (execF sF (reqs.map (fun r => (r, none)))).2, x.isSome = true) →
    (execQ sQ reqs).2 = (execF sF (reqs.map (fun r => (r, none)))).2 := by
  induction reqs with
  | nil => intro sF sQ h hok; rfl
  | cons r rs ih =>
    intro sF sQ h hok
    simp only [List.map_cons, execF] at hok
    have hhd : ((stepF sF r none).2).isSome = true :=
      hok _ (List.mem_cons_self _ _)
    have hstep := step_bisim r h hhd
    simp only [List.map_cons, execF, execQ]
    rw [hstep.1, ih (stepF sF r none).1 (stepQ sQ r true).1 hstep.2.symm
      (fun x hx => hok x (List.mem_cons_of_mem _ hx))]

/-- A successful append writes the frame at the end position. -/
theorem appendWAL_ok {c : Cmd} (s : StateF) (hval : isValidOp c.op = true)
    (hsz : ¬ maxWALFrameSize < (marshalCmd c).length) :
    appendWAL s c none =
      ({ s with
          log := s.log.take s.pos ++ frameOf (marshalCmd c),
          pos := s.pos + (frameOf (marshalCmd c)).length }, true) := by
  rw [appendWAL.eq_def, if_neg (by rw [hval]; simp), if_neg hsz]

/-- `applyCommand` with a delete record removes the key. -/
theorem applyCommand_deleteLit (t : Tree) (k : Str) :
    applyCommand t ⟨deleteLit, k, []⟩ = removeKey k t := by
  rw [applyCommand]
  dsimp only
  rw [if_neg (by decide), if_pos rfl]

/-!
## The claims
-/

/-- C1: the index the recovery driver rebuilds equals the fold of the
applier over the replayed records from empty (first conjunct, for every
fuel, start index and log bytes); and — amended: for acknowledged
mutations whose keys and values are valid UTF-8 — after a restart over the
produced log, `GET k` replies with the value the last acknowledged
mutation installed for `k`, or absence when it was a delete or `k` was
never touched.  (Unamended, the durability part fails for non-UTF-8 keys:
`json.Marshal` coerces them to replacement runes, see the
counterexample.) -/
theorem claim_C1 :
    (∀ (fuel : Nat) (t : Tree) (bs : List Nat),
      replayLoopF fuel t bs = (replayCmdsF fuel bs).map (List.foldl applyCommand t)) ∧
    (∀ (cs : List Cmd) (k : Str),
      (appendAllF ⟨[], [], 0⟩ cs).2 = true →
      (∀ c ∈ cs, Utf8Cmd c) →
      ∃ s : StateF, newKVServer (appendAllF ⟨[], [], 0⟩ cs).1.log = some s ∧
        (getF s k).2 = some (match lastVal cs k with
          | some v => Reply.getR true v
          | none => Reply.getR false [])) := by
  constructor
  · exact replayLoopF_cmds
  · intro cs k hok hu
    obtain ⟨hwf, hlog, -, -⟩ := appendAllF_ok cs ⟨[], [], 0⟩ rfl hok
    rw [hlog]
    simp only [List.nil_append]
    have hrep : replayWAL (framesOf cs) = some (List.foldl applyCommand [] cs) := by
      rw [replayWAL_frames cs hwf,
        foldl_sanitize cs (fun c hc => ⟨(hwf c hc).1, hu c hc⟩)]
    refine ⟨⟨List.foldl applyCommand [] cs, framesOf cs, (framesOf cs).length⟩, ?_, ?_⟩
    · rw [newKVServer, hrep]
    · have hget : treeGet k (List.foldl applyCommand [] cs) = lastVal cs k := by
        rw [treeGet_foldl_applyCommand cs (fun c hc => (hwf c hc).1) []
          List.Pairwise.nil k]
        rfl
      rw [getF]
      dsimp only
      rw [hget, lastVal]
      cases (lastAct cs k).getD none <;> rfl

/-- Witness for C1 at one acknowledged `PUT a 1`. -/
theorem claim_C1_witness :
    (appendAllF ⟨[], [], 0⟩ [⟨putLit, [97], [49]⟩]).2 = true ∧
    (∃ s : StateF,
      newKVServer (appendAllF ⟨[], [], 0⟩ [⟨putLit, [97], [49]⟩]).1.log = some s ∧
      (getF s [97]).2 = some (match lastVal [⟨putLit, [97], [49]⟩] [97] with
        | some v => Reply.getR true v
        | none => Reply.getR false [])) :=
  ⟨by decide, claim_C1.2 [⟨putLit, [97], [49]⟩] [97] (by decide)
    (fun c hc => by
      rw [List.mem_singleton] at hc
      subst hc
      exact ⟨⟨[97], by decide, by decide⟩, ⟨[49], by decide, by decide⟩⟩)⟩

/-- C1 counterexample to the unamended claim: a `PUT` of the non-UTF-8 key
`0xFF` is acknowledged, but after restart `GET` of that key reports
absence although the last acknowledged mutation installed `"1"`. -/
theorem claim_C1_cex :
    (appendAllF ⟨[], [], 0⟩ [⟨putLit, [255], [49]⟩]).2 = true ∧
    lastVal [⟨putLit, [255], [49]⟩] [255] = some [49] ∧
    (newKVServer (appendAllF ⟨[], [], 0⟩ [⟨putLit, [255], [49]⟩]).1.log).isSome
      = true ∧
    (getF ((newKVServer
        (appendAllF ⟨[], [], 0⟩ [⟨putLit, [255], [49]⟩]).1.log).getD ⟨[], [], 0⟩)
      [255]).2 = some (Reply.getR false []) := by decide

/-- C2 (amended): records appended by successful calls from an empty log,
with valid-UTF-8 keys and values, are recovered by replay exactly and in
order.  (Unamended, the claim fails for non-UTF-8 byte strings: the JSON
encoder coerces them, see the counterexample.) -/
theorem claim_C2 (cs : List Cmd)
    (hok : (appendAllF ⟨[], [], 0⟩ cs).2 = true)
    (hu : ∀ c ∈ cs, Utf8Cmd c) :
    replayCmds (appendAllF ⟨[], [], 0⟩ cs).1.log = some cs := by
  obtain ⟨hwf, hlog, -, -⟩ := appendAllF_ok cs ⟨[], [], 0⟩ rfl hok
  rw [hlog]
  simp only [List.nil_append]
  rw [replayCmds_frames cs hwf,
    map_sanitizeCmd_id (fun c hc => ⟨(hwf c hc).1, hu c hc⟩)]

/-- Witness for C2 on a two-record history. -/
theorem claim_C2_witness :
    (appendAllF ⟨[], [], 0⟩
      [⟨putLit, [97], [49]⟩, ⟨deleteLit, [97], []⟩]).2 = true ∧
    replayCmds (appendAllF ⟨[], [], 0⟩
      [⟨putLit, [97], [49]⟩, ⟨deleteLit, [97], []⟩]).1.log =
      some [⟨putLit, [97], [49]⟩, ⟨deleteLit, [97], []⟩] :=
  ⟨by decide, claim_C2 _ (by decide)
    (fun c hc => by
      rcases List.mem_cons.mp hc with he | hc2
      · subst he
        exact ⟨⟨[97], by decide, by decide⟩, ⟨[49], by decide, by decide⟩⟩
      · rw [List.mem_singleton] at hc2
        subst hc2
        exact ⟨⟨[97], by decide, by decide⟩, ⟨[], by decide, by decide⟩⟩)⟩

/-- C2 counterexample to the unamended claim: the append of a record with
the non-UTF-8 key `0xFF` succeeds, but replay yields the coerced record,
not the appended one. -/
theorem claim_C2_cex :
    (appendAllF ⟨[], [], 0⟩ [⟨putLit, [255], [49]⟩]).2 = true ∧
    replayCmds (appendAllF ⟨[], [], 0⟩ [⟨putLit, [255], [49]⟩]).1.log ≠
      some [⟨putLit, [255], [49]⟩] ∧
    replayCmds (appendAllF ⟨[], [], 0⟩ [⟨putLit, [255], [49]⟩]).1.log =
      some [⟨putLit, [239, 191, 189], [49]⟩] := by decide

/-- C3: when the log append of a `PUT`, `SWAP` or `DELETE` fails, the
operation replies with a storage error (`none`) and the index is
unchanged. -/
theorem claim_C3 (s : StateF) (k v : Str) (io : Option Nat) :
    ((appendWAL s ⟨putLit, k, v⟩ io).2 = false →
      (putF s k v io).2 = none ∧ (putF s k v io).1.tree = s.tree) ∧
    ((appendWAL s ⟨swapLit, k, v⟩ io).2 = false →
      (swapF s k v io).2 = none ∧ (swapF s k v io).1.tree = s.tree) ∧
    ((appendWAL s ⟨deleteLit, k, []⟩ io).2 = false →
      (delF s k io).2 = none ∧ (delF s k io).1.tree = s.tree) := by
  refine ⟨fun h => ?_, fun h => ?_, fun h => ?_⟩
  · simp only [putF]
    rw [h]
    exact ⟨by rw [if_neg (by simp)], by rw [if_neg (by simp)]; exact appendWAL_tree s _ io⟩
  · simp only [swapF]
    rw [h]
    exact ⟨by rw [if_neg (by simp)], by rw [if_neg (by simp)]; exact appendWAL_tree s _ io⟩
  · simp only [delF]
    rw [h]
    exact ⟨by rw [if_neg (by simp)], by rw [if_neg (by simp)]; exact appendWAL_tree s _ io⟩

/-- Witness for C3: an injected write failure on a `PUT`. -/
theorem claim_C3_witness :
    (appendWAL ⟨[], [], 0⟩ ⟨putLit, [97], [49]⟩ (some 0)).2 = false ∧
    ((putF ⟨[], [], 0⟩ [97] [49] (some 0)).2 = none ∧
      (putF ⟨[], [], 0⟩ [97] [49] (some 0)).1.tree = (⟨[], [], 0⟩ : StateF).tree) :=
  ⟨by decide, (claim_C3 ⟨[], [], 0⟩ [97] [49] (some 0)).1 (by decide)⟩

/-- C4 (code bug, spec scenario S5): with a log holding one good
`PUT x 1` frame and a trailing partial frame (length prefix 10, three
payload bytes), recovery succeeds and `GET x` sees `1`, and the next `PUT`
is acknowledged — but that appended record is *not* recoverable: the
server appended after the partial-frame bytes (it seeks to the file end,
not to the end of the last good frame), so a subsequent replay misparses
the junk as a frame body and aborts instead of yielding the new record. -/
theorem claim_C4_bug :
    (newKVServer (framesOf [⟨putLit, [120], [49]⟩] ++ [0, 0, 0, 10, 1, 2, 3])).isSome
      = true ∧
    treeGet [120] ((newKVServer (framesOf [⟨putLit, [120], [49]⟩] ++
      [0, 0, 0, 10, 1, 2, 3])).getD ⟨[], [], 0⟩).tree = some [49] ∧
    (stepF ((newKVServer (framesOf [⟨putLit, [120], [49]⟩] ++
        [0, 0, 0, 10, 1, 2, 3])).getD ⟨[], [], 0⟩)
      (.putQ [121] [50]) none).2 = some (.putR false) ∧
    replayWAL (stepF ((newKVServer (framesOf [⟨putLit, [120], [49]⟩] ++
        [0, 0, 0, 10, 1, 2, 3])).getD ⟨[], [], 0⟩)
      (.putQ [121] [50]) none).1.log = none := by decide

/-- C5 (amended): the frame codec round-trips every record whose op is
valid and whose key and value are valid UTF-8, and decoding rejects any
payload whose op field is not `put`, `swap` or `delete`.  (Unamended, the
round-trip fails on non-UTF-8 byte strings: Go's `json.Marshal` coerces
invalid bytes to the replacement rune, see the counterexample.) -/
theorem claim_C5 :
    (∀ c : Cmd, isValidOp c.op = true → IsUtf8 c.key → IsUtf8 c.value →
      decodePayload (marshalCmd c) = some c) ∧
    (∀ (payload : List Nat) (c : Cmd), unmarshalCmd payload = some c →
      isValidOp c.op = false → decodePayload payload = none) := by
  constructor
  · intro c hop hk hv
    rw [decodePayload, unmarshal_marshal]
    dsimp only
    rw [if_pos (show isValidOp (sanitize c.op) = true by
      rw [sanitize_validOp hop]; exact hop)]
    rw [sanitize_validOp hop, sanitize_utf8 hk, sanitize_utf8 hv]
  · intro payload c hun hop
    rw [decodePayload, hun]
    dsimp only
    rw [if_neg (by rw [hop]; simp)]

/-- Witness for C5: a UTF-8 record round-trips; a payload with op `"x"` is
rejected. -/
theorem claim_C5_witness :
    decodePayload (marshalCmd ⟨putLit, [97], [98]⟩) = some ⟨putLit, [97], [98]⟩ ∧
    (unmarshalCmd [123, 34, 111, 112, 34, 58, 34, 120, 34, 125] =
      some ⟨[120], [], []⟩ ∧
    decodePayload [123, 34, 111, 112, 34, 58, 34, 120, 34, 125] = none) :=
  ⟨claim_C5.1 ⟨putLit, [97], [98]⟩ (by decide) ⟨[97], by decide, by decide⟩
    ⟨[98], by decide, by decide⟩,
   by decide,
   claim_C5.2 [123, 34, 111, 112, 34, 58, 34, 120, 34, 125] ⟨[120], [], []⟩
     (by decide) (by decide)⟩

/-- C5 counterexample to the unamended claim: the record with the
non-UTF-8 key `0xFF` does not round-trip; decode yields the replacement
bytes `EF BF BD`. -/
theorem claim_C5_cex :
    decodePayload (marshalCmd ⟨putLit, [255], [49]⟩) =
      some ⟨putLit, [239, 191, 189], [49]⟩ ∧
    (⟨putLit, [239, 191, 189], [49]⟩ : Cmd) ≠ ⟨putLit, [255], [49]⟩ := by decide

/-- C6: `SCAN` returns exactly the stored entries with keys in the
inclusive range, in strictly ascending key order (hence no key twice); an
inverted range yields the empty reply; and a stored key `k` scans on
`[k, k]` to exactly its own pair. -/
theorem claim_C6 (s : StateF) (a b : Str) (io : Option Nat)
    (hs : SortedT s.tree) :
    (stepF s (.scanQ a b) io).2 = some (.scanR (scanPairs s.tree a b)) ∧
    scanPairs s.tree a b = s.tree.filter (fun p => leS a p.1 && leS p.1 b) ∧
    (scanPairs s.tree a b).Pairwise (fun p q => ltS p.1 q.1 = true) ∧
    (ltS b a = true → scanPairs s.tree a b = []) ∧
    (∀ k v, treeGet k s.tree = some v → scanPairs s.tree k k = [(k, v)]) :=
  ⟨rfl, scanPairs_eq_filter hs a b, scanPairs_sorted hs a b,
    fun h => scanPairs_empty hs h, fun _ _ h => scanPairs_self hs h⟩

/-- Witness for C6 on a two-entry index. -/
theorem claim_C6_witness :
    SortedT ([([97], [49]), ([98], [50])] : Tree) ∧
    ((stepF ⟨[([97], [49]), ([98], [50])], [], 0⟩ (.scanQ [97] [98]) none).2 =
      some (.scanR (scanPairs [([97], [49]), ([98], [50])] [97] [98])) ∧
    scanPairs ([([97], [49]), ([98], [50])] : Tree) [97] [98] =
      List.filter (fun p => leS [97] p.1 && leS p.1 [98])
        [([97], [49]), ([98], [50])] ∧
    (scanPairs ([([97], [49]), ([98], [50])] : Tree) [97] [98]).Pairwise
      (fun p q => ltS p.1 q.1 = true) ∧
    (ltS [98] [97] = true →
      scanPairs ([([97], [49]), ([98], [50])] : Tree) [97] [98] = []) ∧
    (∀ k v, treeGet k ([([97], [49]), ([98], [50])] : Tree) = some v →
      scanPairs ([([97], [49]), ([98], [50])] : Tree) k k = [(k, v)])) :=
  ⟨by decide,
   claim_C6 ⟨[([97], [49]), ([98], [50])], [], 0⟩ [97] [98] none (by decide)⟩

/-- C7: a successful `DELETE k` replies `found` iff `k` was present,
removes `k` from the index, logs a delete record even when `k` was absent,
and a second consecutive `DELETE k` also succeeds and replies
`found = false`. -/
theorem claim_C7 (s : StateF) (k : Str) (s1 : StateF) (rep : Reply)
    (hs : SortedT s.tree)
    (h1 : stepF s (.delQ k) none = (s1, some rep)) :
    rep = .delR (treeGet k s.tree).isSome ∧
    s1.tree = removeKey k s.tree ∧
    s1.log = s.log.take s.pos ++ frameOf (marshalCmd ⟨deleteLit, k, []⟩) ∧
    (stepF s1 (.delQ k) none).2 = some (.delR false) := by
  by_cases hsz : maxWALFrameSize < (marshalCmd ⟨deleteLit, k, []⟩).length
  · exfalso
    have hfail : appendWAL s ⟨deleteLit, k, []⟩ none = (s, false) := by
      rw [appendWAL.eq_def, if_neg (by simp; decide), if_pos hsz]
    simp only [stepF, delF, hfail] at h1
    rw [if_neg (by simp)] at h1
    have := congrArg Prod.snd h1
    simp at this
  · have happ := appendWAL_ok (c := ⟨deleteLit, k, []⟩) s rfl hsz
    simp only [stepF, delF, happ] at h1
    rw [if_pos trivial] at h1
    have hA := congrArg Prod.fst h1
    have hB := congrArg Prod.snd h1
    dsimp only at hA hB
    injection hB with hB
    subst hB
    subst hA
    refine ⟨rfl, ?_, rfl, ?_⟩
    · dsimp only
      rw [applyCommand_deleteLit]
    · simp only [stepF, delF]
      rw [appendWAL_ok (c := ⟨deleteLit, k, []⟩) _ rfl hsz, if_pos rfl]
      dsimp only
      rw [applyCommand_deleteLit, treeGet_removeKey_self k hs]
      rfl

/-- Witness for C7: delete a present key, then delete it again. -/
theorem claim_C7_witness :
    SortedT (⟨[([97], [49])], [], 0⟩ : StateF).tree ∧
    stepF ⟨[([97], [49])], [], 0⟩ (.delQ [97]) none =
      ((stepF ⟨[([97], [49])], [], 0⟩ (.delQ [97]) none).1, some (.delR true)) ∧
    (Reply.delR true =
        .delR (treeGet [97] (⟨[([97], [49])], [], 0⟩ : StateF).tree).isSome ∧
      (stepF ⟨[([97], [49])], [], 0⟩ (.delQ [97]) none).1.tree =
        removeKey [97] (⟨[([97], [49])], [], 0⟩ : StateF).tree ∧
      (stepF ⟨[([97], [49])], [], 0⟩ (.delQ [97]) none).1.log =
        List.take 0 [] ++ frameOf (marshalCmd ⟨deleteLit, [97], []⟩) ∧
      (stepF (stepF ⟨[([97], [49])], [], 0⟩ (.delQ [97]) none).1
        (.delQ [97]) none).2 = some (.delR false)) :=
  ⟨by decide, by decide,
   claim_C7 ⟨[([97], [49])], [], 0⟩ [97]
     (stepF ⟨[([97], [49])], [], 0⟩ (.delQ [97]) none).1 (.delR true)
     (by decide) (by decide)⟩

/-- C8 (amended): starting from a fresh server, every request step with
successful I/O and valid-UTF-8 keys and values preserves the log/index
consistency invariant: the log is exactly the acknowledged frames and
replaying it rebuilds exactly the live index.  (Unamended — "after any
operation returns, whether with a success or an error reply" — the claim
fails: a flush failure after a fully written frame leaves a record in the
log that was never applied, see the counterexample.) -/
theorem claim_C8 :
    StateWF ⟨[], [], 0⟩ ∧
    (∀ (s : StateF) (r : Req), StateWF s → ReqWF r →
      StateWF (stepF s r none).1 ∧
      replayWAL (stepF s r none).1.log = some (stepF s r none).1.tree) :=
  ⟨StateWF_init, fun _ _ hs hr =>
    ⟨stepF_wf hs hr, StateWF_replay (stepF_wf hs hr)⟩⟩

/-- Witness for C8: one `PUT a 1` against the fresh server. -/
theorem claim_C8_witness :
    StateWF ⟨[], [], 0⟩ ∧ ReqWF (.putQ [97] [49]) ∧
    (StateWF (stepF ⟨[], [], 0⟩ (.putQ [97] [49]) none).1 ∧
      replayWAL (stepF ⟨[], [], 0⟩ (.putQ [97] [49]) none).1.log =
        some (stepF ⟨[], [], 0⟩ (.putQ [97] [49]) none).1.tree) :=
  ⟨claim_C8.1,
   ⟨⟨[97], by decide, by decide⟩, ⟨[49], by decide, by decide⟩⟩,
   claim_C8.2 ⟨[], [], 0⟩ (.putQ [97] [49]) claim_C8.1
     ⟨⟨[97], by decide, by decide⟩, ⟨[49], by decide, by decide⟩⟩⟩

/-- C8 counterexample to the unamended claim: a `PUT` whose frame is fully
written but whose flush fails replies with an error, leaving a record in
the log (replay recovers it) that was never applied to the index. -/
theorem claim_C8_cex :
    (stepF ⟨[], [], 0⟩ (.putQ [97] [49]) (some 38)).2 = none ∧
    replayWAL (stepF ⟨[], [], 0⟩ (.putQ [97] [49]) (some 38)).1.log =
      some [([97], [49])] ∧
    (stepF ⟨[], [], 0⟩ (.putQ [97] [49]) (some 38)).1.tree = [] := by decide

/-- C9: over any request sequence in which no storage operation fails
(every file-backed reply is a success; the database run commits every
insert), the file-backed and embedded-database-backed servers produce
identical reply sequences. -/
theorem claim_C9 (reqs : List Req)
    (hok : ∀ x ∈ (execF ⟨[], [], 0⟩ (reqs.map (fun r => (r, none)))).2,
      x.isSome = true) :
    (execQ ⟨[], []⟩ reqs).2 =
      (execF ⟨[], [], 0⟩ (reqs.map (fun r => (r, none)))).2 :=
  exec_bisim reqs ⟨[], [], 0⟩ ⟨[], []⟩ rfl hok

/-- Witness for C9 on a five-request script exercising all five RPCs. -/
theorem claim_C9_witness :
    (∀ x ∈ (execF ⟨[], [], 0⟩
        ([Req.putQ [97] [49], .swapQ [97] [50], .getQ [97], .delQ [97],
          .scanQ [] [255]].map (fun r => (r, none)))).2, x.isSome = true) ∧
    (execQ ⟨[], []⟩
        [Req.putQ [97] [49], .swapQ [97] [50], .getQ [97], .delQ [97],
          .scanQ [] [255]]).2 =
      (execF ⟨[], [], 0⟩
        ([Req.putQ [97] [49], .swapQ [97] [50], .getQ [97], .delQ [97],
          .scanQ [] [255]].map (fun r => (r, none)))).2 :=
  ⟨by decide, claim_C9 _ (by decide)⟩

/-- C10: the `Get` and `Scan` handlers of both variants always return a
success reply (never an error), and leave the state — index tree, log file
contents and log position (respectively log rows) — unchanged. -/
theorem claim_C10 (s : StateF) (q : StateQ) (k a b : Str) (io : Option Nat)
    (ok : Bool) :
    (stepF s (.getQ k) io).1 = s ∧ ((stepF s (.getQ k) io).2).isSome = true ∧
    (stepF s (.scanQ a b) io).1 = s ∧
    ((stepF s (.scanQ a b) io).2).isSome = true ∧
    (stepQ q (.getQ k) ok).1 = q ∧ ((stepQ q (.getQ k) ok).2).isSome = true ∧
    (stepQ q (.scanQ a b) ok).1 = q ∧
    ((stepQ q (.scanQ a b) ok).2).isSome = true := by
  refine ⟨?_, ?_, rfl, rfl, ?_, ?_, rfl, rfl⟩
  · simp only [stepF, getF]
    cases treeGet k s.tree <;> rfl
  · simp only [stepF, getF]
    cases treeGet k s.tree <;> rfl
  · simp only [stepQ, getQ]
    cases treeGet k q.tree <;> rfl
  · simp only [stepQ, getQ]
    cases treeGet k q.tree <;> rfl

end KVStore

